import Mathlib

/-!
Shallow embedding of the `wavelet-trie` repository (Rust) in Lean 4.

The bit-vector layer (`src/bit_vec_wrap/mod.rs`) wraps the `bit_vec` crate:
a `BitVecWrap` is a finite sequence of bits, stored in 32-bit blocks
(LSB-first within a block, unused trailing bits of the last block zero).
We model the logical content as a `List Bool` and derive the block view
where the source operates block-wise (`rank_one`, `is_prefix_of`).

Rust panics (assertion failures, `unwrap` on `None`) are modelled as
`Option.none` results; `Result<(), &'static str>` is `Except String Unit`.
-/

abbrev BitVecWrap := List Bool

namespace BitVecWrap

/-- Models `BitVecWrap::new`. -/
def new : BitVecWrap := []

/-- Models `BitVecWrap::from_elem` (`BitVec::from_elem(nbits, bit)`). -/
def from_elem (nbits : Nat) (bit : Bool) : BitVecWrap := List.replicate nbits bit

/-- Models `BitVecWrap::get`: `self.bit_vec.get(i)`, `None` iff out of range. -/
def get (v : BitVecWrap) (i : Nat) : Option Bool := v.get? i

/-- Models `BitVecWrap::set`: `BitVec::set` asserts `i < len` and panics
otherwise; the panic is the `none` result. -/
def set? (v : BitVecWrap) (i : Nat) (elem : Bool) : Option BitVecWrap :=
  if i < v.length then some (v.set i elem) else none

/-- Models `BitVecWrap::push`. -/
def push (v : BitVecWrap) (elem : Bool) : BitVecWrap := v ++ [elem]

/-- Models `BitVecWrap::copy`, which pushes every bit of the source onto a
fresh vector. -/
def copy (v : BitVecWrap) : BitVecWrap := List.foldl (fun acc bit => acc ++ [bit]) [] v

/-- One iteration of the shifting loop in `BitVecWrap::insert`:
`if index > 0 { if let Some(bit) = get(index - 1) { set(index, bit) } }`.
The inner `set` is always in range because `get(index - 1)` succeeded and
the loop only visits `index < len`. -/
def shiftStep (l : List Bool) (index : Nat) : List Bool :=
  if 0 < index then
    match l.get? (index - 1) with
    | some bit => l.set index bit
    | none => l
  else l

/-- Models `BitVecWrap::insert`: push a dummy `false` to grow the vector,
shift bits `i..len` one position toward the end iterating the indices in
reverse, then `set(i, elem)`. The final `set` panics (`none`) iff
`i > len`. -/
def insert? (v : BitVecWrap) (i : Nat) (elem : Bool) : Option BitVecWrap :=
  let grown := v ++ [false]
  let shifted := List.foldl shiftStep grown (List.range' i (grown.length - i)).reverse
  set? shifted i elem

/-- One iteration of the shifting loop in `BitVecWrap::delete`:
`if let Some(bit) = get(index) { set(index - 1, bit) }`. -/
def delStep (l : List Bool) (index : Nat) : List Bool :=
  match l.get? index with
  | some bit => l.set (index - 1) bit
  | none => l

/-- Models `BitVecWrap::delete`: shift bits `(i+1)..len` one position toward
the beginning, then `pop()` (whose `Option` result is discarded). Note the
source never panics here: with `i ≥ len` the loop body runs zero times and
`pop` still removes the last bit. -/
def delete (v : BitVecWrap) (i : Nat) : BitVecWrap :=
  (List.foldl delStep v (List.range' (i + 1) (v.length - (i + 1)))).dropLast

/-- Value of one storage block of the underlying `BitVec`: bit `j` of the
block is element `j` of the chunk (LSB-first), missing high bits are zero. -/
def toBlockNat (l : List Bool) : Nat :=
  l.foldr (fun b n => (if b then 1 else 0) + 2 * n) 0

/-- The bit list cut into 32-bit chunks, as stored by the `bit_vec` crate
(`1 block = u32`). -/
def chunks32 (l : List Bool) : List (List Bool) :=
  if h : l = [] then [] else l.take 32 :: chunks32 (l.drop 32)
termination_by l.length
decreasing_by
  simp only [List.length_drop]
  have := List.length_pos.mpr h
  omega

/-- Models `self.bit_vec.blocks()`: the iterator over `u32` storage blocks. -/
def blocks (v : BitVecWrap) : List Nat := (chunks32 v).map toBlockNat

/-- Models `u32::count_ones`: the number of one bits in the binary
representation. -/
def count_ones (n : Nat) : Nat :=
  if n = 0 then 0 else n % 2 + count_ones (n / 2)
decreasing_by exact Nat.div_lt_self (Nat.pos_of_ne_zero (by assumption)) (by omega)

/-- Models `BitVecWrap::rank_one`: panics (`none`) if `pos > len`; otherwise
counts ones block-wise up to `pos / 32` blocks and then bit-by-bit from
`pos - pos % 32` up to `pos`. -/
def rank_one (v : BitVecWrap) (pos : Nat) : Option Nat :=
  if pos > v.length then none
  else
    let low_pos := pos / 32
    let bit_count := List.foldl (fun nr_bits block => nr_bits + count_ones block) 0 ((blocks v).take low_pos)
    let start_pos := pos - pos % 32
    some (List.foldl (fun n bit_pos => if v.get? bit_pos = some true then n + 1 else n)
      bit_count (List.range' start_pos (pos - start_pos)))

/-- Models `BitVecWrap::rank_zero`: `pos` when `pos == 0`, otherwise
`pos - rank_one(pos)`. -/
def rank_zero (v : BitVecWrap) (pos : Nat) : Option Nat :=
  if pos = 0 then some pos else (rank_one v pos).map (fun r => pos - r)

/-- Models `BitVecWrap::rank`. -/
def rank (v : BitVecWrap) (bit : Bool) (pos : Nat) : Option Nat :=
  match bit with
  | false => rank_zero v pos
  | true => rank_one v pos

/-- The scan underlying `BitVecWrap::select`: `iter().position(...)` with a
running `count` that is incremented whenever the scanned bit equals `bit`
and compared to `occurrence_nr` after each element. -/
def selectGo (bit : Bool) (occurrence_nr : Nat) : List Bool → Nat → Option Nat
  | [], _ => none
  | x :: xs, count =>
    let count' := if x = bit then count + 1 else count
    if count' = occurrence_nr then some 0 else (selectGo bit occurrence_nr xs count').map (· + 1)

/-- Models `BitVecWrap::select`. -/
def select (v : BitVecWrap) (bit : Bool) (occurrence_nr : Nat) : Option Nat :=
  selectGo bit occurrence_nr v 0

/-- The block-comparison loop of `BitVecWrap::is_prefix_of`, over the zipped
block iterators with its 1-based `block_counter`. On the first unequal pair
of blocks: fail unless this is the last block of `self`
(`block_counter == self.len() / 32 + 1`); fail if `self.len()` is a multiple
of 32; otherwise mask `b2` by `b2 << remainder >> remainder` in `u32`
arithmetic and compare with `b1`. -/
def ipoGo (selfLen : Nat) : List (Nat × Nat) → Nat → Bool
  | [], _ => true
  | (b1, b2) :: rest, block_counter =>
    if b1 ≠ b2 then
      if block_counter ≠ selfLen / 32 + 1 then false
      else
        let remainder := 32 - selfLen % 32
        if remainder = 32 then false
        else
          let b2_shift := b2 * 2 ^ remainder % 2 ^ 32 / 2 ^ remainder
          decide (b2_shift = b1)
    else ipoGo selfLen rest (block_counter + 1)

/-- Models `BitVecWrap::is_prefix_of`: `false` if `self` is longer than
`other`, otherwise the block-wise comparison loop starting at counter 1. -/
def is_prefix_of (self other : BitVecWrap) : Bool :=
  if self.length > other.length then false
  else ipoGo self.length (List.zip (blocks self) (blocks other)) 1

/-- The scanning loop of `BitVecWrap::longest_common_prefix` (the not-equal
case): push bits while the two vectors agree, stop at the first disagreement
or when either vector ends. -/
def lcpLoop : List Bool → List Bool → List Bool
  | a :: xs, b :: ys => if a = b then a :: lcpLoop xs ys else []
  | _, _ => []

/-- Models `BitVecWrap::longest_common_prefix`: a full clone of `self` when
the two vectors are equal (the Grossi–Ottaviano convention), otherwise the
scan loop. -/
def lcp (self other : BitVecWrap) : BitVecWrap :=
  if self = other then self else lcpLoop self other

/-- Models `BitVecWrap::different_suffix`: `get(len).unwrap()` (panic, i.e.
`none`, when `len ≥ self.len()`) paired with the bits after position `len`. -/
def different_suffix (v : BitVecWrap) (len : Nat) : Option (Bool × BitVecWrap) :=
  (v.get? len).map (fun first_bit => (first_bit, v.drop (len + 1)))

end BitVecWrap


inductive WaveletTrie : Type where
  | node (pfx : BitVecWrap) (positions : BitVecWrap) (left : Option WaveletTrie)
      (right : Option WaveletTrie) : WaveletTrie
deriving Repr

namespace WaveletTrie

def new : WaveletTrie := node [] [] none none

def len : WaveletTrie → Nat
  | node _ positions _ _ => positions.length

def seqSplit (plen : Nat) : List BitVecWrap → Option (List Bool × List BitVecWrap × List BitVecWrap)
  | [] => some ([], [], [])
  | s :: rest =>
    match BitVecWrap.different_suffix s plen with
    | none => none
    | some (bit, suffix) =>
      match seqSplit plen rest with
      | none => none
      | some (bits, ls, rs) =>
        if bit then some (bit :: bits, ls, suffix :: rs)
        else some (bit :: bits, suffix :: ls, rs)

def sumLen (ss : List BitVecWrap) : Nat := (ss.map List.length).sum

def insert_static (sequences : List BitVecWrap) : Option WaveletTrie :=
  match hmat : sequences with
  | [] => some new
  | first :: _ =>
    if hall : sequences.all (fun s => s = first) then
      some (node first (List.replicate sequences.length false) none none)
    else
      let pfx := sequences.foldl (fun p s => BitVecWrap.lcp p s) first
      match hs : seqSplit pfx.length sequences with
      | none => none
      | some (bits, left_sequences, right_sequences) =>
        match insert_static left_sequences, insert_static right_sequences with
        | some left_child, some right_child =>
          some (node pfx bits (some left_child) (some right_child))
        | _, _ => none
termination_by sumLen sequences
decreasing_by
  all_goals
  · have key : ∀ (p : Nat) (ss : List BitVecWrap) bs ls rs,
        seqSplit p ss = some (bs, ls, rs) →
        sumLen ls + ss.length ≤ sumLen ss ∧ sumLen rs + ss.length ≤ sumLen ss := by
      intro p ss
      induction ss with
      | nil =>
        intro bs ls rs h
        simp only [seqSplit, Option.some.injEq, Prod.mk.injEq] at h
        obtain ⟨-, h2, h3⟩ := h
        simp [← h2, ← h3, sumLen]
      | cons s rest ih =>
        intro bs ls rs h
        simp only [seqSplit] at h
        cases hds : BitVecWrap.different_suffix s p with
        | none => rw [hds] at h; cases h
        | some bitsuf =>
          rw [hds] at h
          obtain ⟨bit, suffix⟩ := bitsuf
          obtain ⟨b0, hb0, hfb⟩ := Option.map_eq_some'.mp hds
          have hp : p < s.length := (List.get?_eq_some.mp hb0).1
          have hsufdef : suffix = s.drop (p + 1) := (Prod.mk.injEq .. |>.mp hfb).2.symm
          have hsuf : suffix.length + 1 ≤ s.length := by
            subst hsufdef; simp [List.length_drop]; omega
          cases hrec : seqSplit p rest with
          | none => rw [hrec] at h; cases h
          | some triple =>
            rw [hrec] at h
            obtain ⟨bits', ls', rs'⟩ := triple
            obtain ⟨ih1, ih2⟩ := ih bits' ls' rs' hrec
            dsimp only at h
            split at h <;>
            · simp only [Option.some.injEq, Prod.mk.injEq] at h
              obtain ⟨-, hls, hrs⟩ := h
              subst hls; subst hrs
              simp only [sumLen, List.map_cons, List.sum_cons, List.length_cons] at *
              omega
    have hk := key _ _ _ _ _ hs
    rw [hmat] at hk
    simp only [sumLen, List.map_cons, List.sum_cons, List.length_cons] at *
    omega

def from_sequences (sequences : List BitVecWrap) : Option WaveletTrie :=
  insert_static sequences

mutual

def insert : WaveletTrie → BitVecWrap → Nat → Option (WaveletTrie × Except String Unit)
  | node pfx positions left right, sequence, index =>
    if pfx = [] then
      if left.isNone then
        some (node (BitVecWrap.copy sequence) (BitVecWrap.push positions false) left right, Except.ok ())
      else
        if sequence = [] then
          some (node pfx positions left right,
            Except.error "The string being inserded is a prefix of a string in the trie, which is not allowed. (1)")
        else insert_to_child pfx positions left right sequence index
    else
      if sequence = [] then
        some (node pfx positions left right,
          Except.error "The string being inserded is a prefix of a string in the trie, which is not allowed. (5)")
      else if pfx = sequence then
        if left.isNone then
          match BitVecWrap.insert? positions index false with
          | some ps => some (node pfx ps left right, Except.ok ())
          | none => none
        else
          some (node pfx positions left right,
            Except.error "The string being inserded is a prefix of a string in the trie, which is not allowed. (2)")
      else if BitVecWrap.is_prefix_of sequence pfx then
        some (node pfx positions left right,
          Except.error "The string being inserded is a prefix of a string in the trie, which is not allowed. (3)")
      else if BitVecWrap.is_prefix_of pfx sequence then
        if left.isNone then
          some (node pfx positions left right,
            Except.error "A string in the trie The string being inserded is a prefix of a , which is not allowed. (4)")
        else insert_to_child pfx positions left right sequence index
      else
        let lcp := BitVecWrap.lcp sequence pfx
        match BitVecWrap.different_suffix pfx lcp.length, BitVecWrap.different_suffix sequence lcp.length with
        | some (bit_self, suffix_self), some (bit_seq, suffix_seq) =>
          let original_node := node suffix_self positions left right
          let new_leaf := node suffix_seq (BitVecWrap.from_elem 1 false) none none
          let children : Option WaveletTrie × Option WaveletTrie :=
            match bit_self with
            | false => (some original_node, some new_leaf)
            | true => (some new_leaf, some original_node)
          match BitVecWrap.insert? (BitVecWrap.from_elem positions.length bit_self) index bit_seq with
          | some ps => some (node lcp ps children.1 children.2, Except.ok ())
          | none => none
        | _, _ => none
termination_by t _ _ => sizeOf t

def insert_to_child (pfx positions : BitVecWrap) (left right : Option WaveletTrie)
    (sequence : BitVecWrap) (index : Nat) : Option (WaveletTrie × Except String Unit) :=
  match BitVecWrap.different_suffix sequence pfx.length with
  | none => none
  | some (bit, suffix) =>
    match BitVecWrap.insert? positions index bit with
    | none => none
    | some ps =>
      match bit with
      | true =>
        match hr : right with
        | some child =>
          match BitVecWrap.rank_one ps index with
          | none => none
          | some new_pos =>
            match insert child suffix new_pos with
            | none => none
            | some (child', result) => some (node pfx ps left (some child'), result)
        | none => some (node pfx ps left right, Except.error "The right child has run away!")
      | false =>
        match hl : left with
        | some child =>
          match BitVecWrap.rank_zero ps index with
          | none => none
          | some new_pos =>
            match insert child suffix new_pos with
            | none => none
            | some (child', result) => some (node pfx ps (some child') right, result)
        | none => some (node pfx ps left right, Except.error "The left child has run away!")
termination_by sizeOf left + sizeOf right

end

def append (t : WaveletTrie) (sequence : BitVecWrap) : Option (WaveletTrie × Except String Unit) :=
  insert t sequence (len t)

def rank : WaveletTrie → BitVecWrap → Nat → Option Nat
  | node pfx positions left right, sequence, index =>
    if sequence = [] ∨ sequence = pfx then some index
    else if sequence.length < pfx.length then
      if BitVecWrap.is_prefix_of sequence pfx then some index else none
    else
      if BitVecWrap.is_prefix_of pfx sequence then
        match BitVecWrap.different_suffix sequence pfx.length with
        | none => none
        | some (bit, suffix) =>
          match bit with
          | true =>
            match BitVecWrap.rank_one positions index with
            | none => none
            | some new_index =>
              match right with
              | some trie => rank trie suffix new_index
              | none => some new_index
          | false =>
            match BitVecWrap.rank_zero positions index with
            | none => none
            | some new_index =>
              match left with
              | some trie => rank trie suffix new_index
              | none => some new_index
      else none

/-- Logical occurrence list of an internal node, before prepending the
node's own `pfx`: walk the `positions` bitmap in order, taking the next
left-child occurrence on a `false` bit and the next right-child occurrence
on a `true` bit, recording the routing bit itself; `none` unless the bitmap
consumes both child lists exactly. -/
def merge : List Bool → List (List Bool) → List (List Bool) → Option (List (List Bool))
  | [], cl, cr =>
    match cl, cr with
    | [], [] => some []
    | _, _ => none
  | b :: pos, cl, cr =>
    if b then
      match cr with
      | o :: cr' => (merge pos cl cr').map (fun ms => (true :: o) :: ms)
      | [] => none
    else
      match cl with
      | o :: cl' => (merge pos cl' cr).map (fun ms => (false :: o) :: ms)
      | [] => none

/-- The multiset of BitStrings represented by a (sub)trie, in logical
occurrence order: a childless node holds `positions.len()` occurrences of
its `pfx`; an internal node holds `pfx ++ bit ++ (child occurrence)` routed
by its bitmap. `none` when the structure is inconsistent. -/
def contents : WaveletTrie → Option (List (List Bool))
  | node pfx positions none none => some (List.replicate positions.length pfx)
  | node pfx positions (some lt) (some rt) =>
    match contents lt, contents rt with
    | some cl, some cr =>
      match merge positions cl cr with
      | some ms => some (ms.map (fun o => pfx ++ o))
      | none => none
    | _, _ => none
  | _ => none

/-- Structural well-formedness used in the insertion-correctness proofs:
children come in pairs, an internal node routes at least one occurrence and
its bitmap's bit counts agree with the sizes of the children's occurrence
lists, and a childless node with occurrences but empty `pfx` is allowed
only for the stored-empty-string leaf; a childless node with zero
occurrences must have an empty `pfx`. -/
def GoodT : WaveletTrie → Prop
  | node pfx positions none none => positions = [] → pfx = []
  | node _ positions (some lt) (some rt) =>
    positions ≠ [] ∧ GoodT lt ∧ GoodT rt ∧
    (∃ cl, contents lt = some cl ∧ cl.length = positions.count false) ∧
    (∃ cr, contents rt = some cr ∧ cr.length = positions.count true)
  | _ => False

/-- The per-node state machine of spec §4.2 read literally: Empty (empty
prefix, no children, zero occurrences), Leaf (NON-empty prefix, no
children, at least one occurrence), or Internal (both children present);
applied recursively to every node. -/
def specStateMachine : WaveletTrie → Prop
  | node pfx positions none none => (pfx = [] ∧ positions = []) ∨ (pfx ≠ [] ∧ positions ≠ [])
  | node _ _ (some lt) (some rt) => specStateMachine lt ∧ specStateMachine rt
  | _ => False

/-- The amended state machine: as `specStateMachine`, except that a Leaf
(childless node with at least one occurrence) may also carry an empty
prefix (it then stores occurrences of the empty BitString). -/
def shapeOk : WaveletTrie → Prop
  | node pfx positions none none => (pfx = [] ∧ positions = []) ∨ positions ≠ []
  | node _ _ (some lt) (some rt) => shapeOk lt ∧ shapeOk rt
  | _ => False

/-- Tries reachable from `new()` or `from_sequences` by successful
`insert`/`append` calls (`append` is `insert` at index `len()`). -/
inductive Reachable : WaveletTrie → Prop where
  | base : Reachable new
  | bulk (sequences : List BitVecWrap) (t : WaveletTrie) :
      from_sequences sequences = some t → Reachable t
  | step (t : WaveletTrie) (s : BitVecWrap) (i : Nat) (t' : WaveletTrie) :
      Reachable t → insert t s i = some (t', Except.ok ()) → Reachable t'

/-- Run a list of `(sequence, index)` insertions left to right; `none` if
any of them panics or returns an error. -/
def runInserts : WaveletTrie → List (BitVecWrap × Nat) → Option WaveletTrie
  | t, [] => some t
  | t, (s, i) :: rest =>
    match insert t s i with
    | some (t', Except.ok ()) => runInserts t' rest
    | _ => none

end WaveletTrie

/-- Insertion of an element at position `i` of a list (the abstract
counterpart of `BitVecWrap::insert` for in-range indices). -/
def insAt {α : Type} (l : List α) (i : Nat) (x : α) : List α :=
  l.take i ++ x :: l.drop i

namespace BitVecWrap

theorem different_suffix_eq_some {v : BitVecWrap} {n : Nat} {b : Bool} {suf : BitVecWrap} :
    different_suffix v n = some (b, suf) ↔ v.get? n = some b ∧ suf = v.drop (n + 1) := by
  constructor
  · intro h
    obtain ⟨b0, hb0, hfb⟩ := Option.map_eq_some'.mp h
    obtain ⟨h1, h2⟩ := Prod.mk.injEq .. |>.mp hfb
    exact ⟨h1 ▸ hb0, h2.symm⟩
  · rintro ⟨h1, h2⟩
    simp only [different_suffix, h1, h2, Option.map_some']

theorem different_suffix_none {v : BitVecWrap} {n : Nat} (h : v.length ≤ n) :
    different_suffix v n = none := by
  simp only [different_suffix, List.get?_eq_getElem?, Option.map_eq_none']
  rw [List.getElem?_eq_none h]

theorem copy_eq (v : BitVecWrap) : copy v = v := by
  have gen : ∀ (w acc : List Bool), List.foldl (fun acc bit => acc ++ [bit]) acc w = acc ++ w := by
    intro w
    induction w with
    | nil => simp
    | cons x xs ih => intro acc; simp [List.foldl_cons, ih]
  simpa [copy] using gen v []

theorem take_set_of_le (l : List Bool) (a : Bool) {m n : Nat} (h : m ≤ n) :
    (l.set n a).take m = l.take m := by
  apply List.ext_getElem?
  intro j
  rw [List.getElem?_take, List.getElem?_take]
  split
  · rename_i hj
    rw [List.getElem?_set]
    have : n ≠ j := by omega
    simp [this]
  · rfl

theorem foldl_shiftStep (k : Nat) : ∀ (i : Nat) (l : List Bool), 1 ≤ i → i + k ≤ l.length →
    List.foldl shiftStep l (List.range' i k).reverse =
      l.take i ++ (l.drop (i - 1)).take k ++ l.drop (i + k) := by
  induction k with
  | zero =>
    intro i l h1 h2
    simp [List.take_append_drop]
  | succ k ih =>
    intro i l h1 h2
    rw [List.range'_1_concat, List.reverse_append]
    simp only [List.reverse_singleton, List.singleton_append, List.foldl_cons]
    have hik : i + k < l.length := by omega
    have hik1 : i + k - 1 < l.length := by omega
    have hstep : shiftStep l (i + k) = l.set (i + k) l[i + k - 1] := by
      unfold shiftStep
      rw [if_pos (by omega)]
      rw [List.get?_eq_getElem?, List.getElem?_eq_getElem hik1]
    rw [hstep]
    rw [ih i (l.set (i + k) l[i + k - 1]) h1 (by simp; omega)]
    have e1 : (l.set (i + k) l[i + k - 1]).take i = l.take i :=
      take_set_of_le l _ (by omega)
    have e2 : ((l.set (i + k) l[i + k - 1]).drop (i - 1)).take k = (l.drop (i - 1)).take k := by
      rw [List.drop_set]
      rw [if_neg (by omega)]
      exact take_set_of_le _ _ (by omega)
    have e3 : (l.set (i + k) l[i + k - 1]).drop (i + k) = l[i + k - 1] :: l.drop (i + k + 1) := by
      rw [List.drop_set, if_neg (by omega), List.drop_eq_getElem_cons hik]
      rw [Nat.sub_self, List.set_cons_zero]
    rw [e1, e2, e3]
    have e4 : (l.drop (i - 1)).take (k + 1) = (l.drop (i - 1)).take k ++ [l[i + k - 1]] := by
      rw [List.take_succ]
      have hlt : k < (l.drop (i - 1)).length := by
        rw [List.length_drop]; omega
      rw [List.getElem?_eq_getElem hlt]
      have : (l.drop (i - 1))[k] = l[i + k - 1] := by
        rw [List.getElem_drop]
        congr 1
        omega
      rw [this]
      simp
    rw [e4]
    simp only [List.append_assoc, List.singleton_append, Nat.add_succ]

theorem insert?_eq {v : BitVecWrap} {i : Nat} (b : Bool) (h : i ≤ v.length) :
    insert? v i b = some (insAt v i b) := by
  have hshow : insert? v i b =
      set? (List.foldl shiftStep (v ++ [false]) (List.range' i ((v ++ [false]).length - i)).reverse) i b := rfl
  rw [hshow]
  unfold insAt
  by_cases hi : 1 ≤ i
  · rw [show (v ++ [false]).length - i = (v.length + 1) - i by simp]
    rw [foldl_shiftStep ((v.length + 1) - i) i (v ++ [false]) hi (by simp only [List.length_append, List.length_singleton]; omega)]
    have e1 : (v ++ [false]).take i = v.take i := List.take_append_of_le_length h
    have e2 : ((v ++ [false]).drop (i - 1)).take (v.length + 1 - i) = v.drop (i - 1) := by
      rw [List.drop_append_of_le_length (by omega)]
      rw [show v.length + 1 - i = (v.drop (i - 1)).length by rw [List.length_drop]; omega]
      exact List.take_left _ _
    have e3 : (v ++ [false]).drop (i + (v.length + 1 - i)) = [] := by
      apply List.drop_eq_nil_of_le
      simp
      omega
    rw [e1, e2, e3, List.append_nil]
    unfold set?
    rw [if_pos (by simp only [List.length_append, List.length_take, List.length_drop]; omega)]
    congr 1
    rw [List.set_append, if_neg (by simp only [List.length_take]; omega)]
    congr 1
    rw [show i - (v.take i).length = 0 by simp only [List.length_take]; omega]
    rw [List.drop_eq_getElem_cons (show i - 1 < v.length by omega), List.set_cons_zero]
    rw [show i - 1 + 1 = i by omega]
  · have hi0 : i = 0 := by omega
    subst hi0
    rcases v with - | ⟨x, xs⟩
    · simp [set?, shiftStep]
    · rw [show ((x :: xs) ++ [false]).length - 0 = xs.length + 1 + 1 by simp]
      rw [List.range'_succ, List.reverse_cons, List.foldl_append]
      rw [foldl_shiftStep (xs.length + 1) 1 _ (le_refl 1) (by simp; omega)]
      simp only [List.foldl_cons, List.foldl_nil]
      rw [show shiftStep ((x :: xs ++ [false]).take 1 ++ ((x :: xs ++ [false]).drop 0).take (xs.length + 1) ++ (x :: xs ++ [false]).drop (1 + (xs.length + 1))) 0 = (x :: xs ++ [false]).take 1 ++ ((x :: xs ++ [false]).drop 0).take (xs.length + 1) ++ (x :: xs ++ [false]).drop (1 + (xs.length + 1)) from by unfold shiftStep; simp]
      have e1 : (x :: xs ++ [false]).take 1 = [x] := by simp
      have e2 : ((x :: xs ++ [false]).drop 0).take (xs.length + 1) = x :: xs := by
        rw [List.drop_zero, show x :: xs ++ [false] = (x :: xs) ++ [false] from rfl]
        rw [List.take_append_of_le_length (by simp)]
        simp
      have e3 : (x :: xs ++ [false]).drop (1 + (xs.length + 1)) = [] := by
        apply List.drop_eq_nil_of_le
        simp
        omega
      rw [e1, e2, e3, List.append_nil]
      unfold set?
      rw [if_pos (by simp)]
      simp

theorem insert?_none {v : BitVecWrap} {i : Nat} (b : Bool) (h : v.length < i) :
    insert? v i b = none := by
  have hshow : insert? v i b =
      set? (List.foldl shiftStep (v ++ [false]) (List.range' i ((v ++ [false]).length - i)).reverse) i b := rfl
  rw [hshow, show (v ++ [false]).length - i = 0 by simp; omega]
  simp [set?]
  omega

end BitVecWrap

namespace BitVecWrap

theorem foldl_delStep (k : Nat) : ∀ (i : Nat) (l : List Bool), i + 1 + k ≤ l.length →
    List.foldl delStep l (List.range' (i + 1) k) =
      l.take i ++ (l.drop (i + 1)).take k ++ l.drop (i + k) := by
  induction k with
  | zero =>
    intro i l h
    simp [List.take_append_drop]
  | succ k ih =>
    intro i l h
    rw [List.range'_succ, List.foldl_cons]
    have hi1 : i + 1 < l.length := by omega
    have hstep : delStep l (i + 1) = l.set i l[i + 1] := by
      unfold delStep
      rw [List.get?_eq_getElem?, List.getElem?_eq_getElem hi1]
      simp
    rw [hstep]
    have hrw : i + 1 + 1 = (i + 1) + 1 := rfl
    rw [ih (i + 1) (l.set i l[i + 1]) (by simp; omega)]
    have e1 : (l.set i l[i + 1]).take (i + 1) = l.take i ++ [l[i + 1]] := by
      apply List.ext_getElem?
      intro j
      rw [List.getElem?_take]
      by_cases hj : j < i + 1
      · rw [if_pos hj, List.getElem?_set]
        by_cases hji : i = j
        · subst hji
          rw [if_pos rfl, if_pos (show i < l.length by omega)]
          rw [List.getElem?_append_right (by simp [List.length_take])]
          rw [show i - (l.take i).length = 0 by simp only [List.length_take]; omega]
          rfl
        · rw [if_neg hji, List.getElem?_append_left (by simp [List.length_take]; omega)]
          rw [List.getElem?_take, if_pos (by omega)]
      · rw [if_neg hj, List.getElem?_append_right (by simp [List.length_take]; omega)]
        simp only [List.length_append, List.length_take]
        rw [List.getElem?_eq_none]
        simp [List.length_take]
        omega
    have e2 : ((l.set i l[i + 1]).drop (i + 1 + 1)).take k = (l.drop (i + 1 + 1)).take k := by
      rw [List.drop_set, if_pos (by omega)]
    have e3 : (l.set i l[i + 1]).drop (i + 1 + k) = l.drop (i + 1 + k) := by
      rw [List.drop_set, if_pos (by omega)]
    rw [e1, e2, e3]
    have e4 : (l.drop (i + 1)).take (k + 1) = l[i + 1] :: (l.drop (i + 1 + 1)).take k := by
      rw [List.drop_eq_getElem_cons hi1, List.take_succ_cons]
    rw [e4]
    simp only [List.append_assoc, List.singleton_append, Nat.add_succ, List.cons_append,
      List.nil_append, Nat.succ_add, Nat.add_zero]

theorem delete_eq {v : BitVecWrap} {i : Nat} (h : i < v.length) :
    delete v i = v.take i ++ v.drop (i + 1) := by
  unfold delete
  rw [show v.length - (i + 1) = (v.length - 1) - i by omega]
  rw [foldl_delStep ((v.length - 1) - i) i v (by omega)]
  have e1 : (v.drop (i + 1)).take (v.length - 1 - i) = v.drop (i + 1) := by
    rw [show v.length - 1 - i = (v.drop (i + 1)).length by simp; omega]
    exact List.take_length _
  rw [e1]
  have hlast : i + (v.length - 1 - i) = v.length - 1 := by omega
  rw [hlast]
  rw [List.drop_eq_getElem_cons (show v.length - 1 < v.length by omega)]
  rw [show v.length - 1 + 1 = v.length by omega, List.drop_length]
  simp only [← List.append_assoc, List.dropLast_concat]

theorem delete_oob {v : BitVecWrap} {i : Nat} (h : v.length ≤ i) :
    delete v i = v.dropLast := by
  unfold delete
  rw [show v.length - (i + 1) = 0 by omega]
  simp

end BitVecWrap

/-- C9: inserting bit `b` at any index `i ≤ len(v)` and then deleting at
the same index restores the original bit vector. The insertion is in range,
hence succeeds, and `delete` undoes it exactly. -/
theorem insert_then_delete (v : BitVecWrap) (i : Nat) (b : Bool) (h : i ≤ v.length) :
    ∃ w, BitVecWrap.insert? v i b = some w ∧ BitVecWrap.delete w i = v := by
  refine ⟨insAt v i b, BitVecWrap.insert?_eq b h, ?_⟩
  have hlen : i < (insAt v i b).length := by
    unfold insAt
    rw [List.length_append, List.length_cons, List.length_take, List.length_drop]
    omega
  rw [BitVecWrap.delete_eq hlen]
  unfold insAt
  have e1 : (v.take i ++ b :: v.drop i).take i = v.take i := by
    rw [List.take_append_of_le_length (by simp [List.length_take]; omega)]
    rw [List.take_take]
    simp
  have e2 : (v.take i ++ b :: v.drop i).drop (i + 1) = v.drop i := by
    rw [show i + 1 = (v.take i).length + 1 by rw [List.length_take]; omega]
    rw [List.drop_append, List.drop_succ_cons, List.drop_zero]
  rw [e1, e2, List.take_append_drop]

/-- Witness for C9 at a concrete input. -/
theorem insert_then_delete_witness :
    ∃ w, BitVecWrap.insert? [true, false] 1 true = some w ∧
      BitVecWrap.delete w 1 = [true, false] :=
  insert_then_delete [true, false] 1 true (by decide)

/-- C5: `longest_common_prefix` applied to two bit-for-bit identical
vectors returns the full vector, not a truncation (the source returns
`self.clone()` whenever `self == other`). -/
theorem lcp_self (v : BitVecWrap) : BitVecWrap.lcp v v = v := by
  simp [BitVecWrap.lcp]

namespace BitVecWrap

theorem toBlockNat_nil : toBlockNat [] = 0 := rfl

theorem toBlockNat_cons (b : Bool) (l : List Bool) :
    toBlockNat (b :: l) = (if b then 1 else 0) + 2 * toBlockNat l := rfl

theorem count_ones_toBlockNat : ∀ l : List Bool, count_ones (toBlockNat l) = l.count true := by
  intro l
  induction l with
  | nil => simp [toBlockNat_nil, count_ones]
  | cons b l ih =>
    rw [toBlockNat_cons]
    by_cases hz : (if b then 1 else 0) + 2 * toBlockNat l = 0
    · have hb : b = false := by
        cases b
        · rfl
        · simp at hz
      subst hb
      simp only [if_neg (Bool.false_ne_true), Nat.zero_add] at hz ⊢
      have he : toBlockNat l = 0 := by omega
      rw [hz, count_ones, if_pos rfl]
      rw [he, count_ones, if_pos rfl] at ih
      rw [List.count_cons]
      simp [← ih]
    · rw [count_ones, if_neg hz]
      have hmod : ((if b then 1 else 0) + 2 * toBlockNat l) % 2 = (if b then 1 else 0) := by
        rw [Nat.add_mul_mod_self_left]
        cases b <;> simp
      have hdiv : ((if b then 1 else 0) + 2 * toBlockNat l) / 2 = toBlockNat l := by
        rw [Nat.add_mul_div_left _ _ (by omega : (0:Nat) < 2)]
        cases b <;> simp
      rw [hmod, hdiv, ih, List.count_cons]
      cases b <;> simp <;> omega

theorem foldl_add_count_ones : ∀ (xs : List Nat) (a : Nat),
    xs.foldl (fun n b => n + count_ones b) a = a + xs.foldl (fun n b => n + count_ones b) 0 := by
  intro xs
  induction xs with
  | nil => simp
  | cons x xs ih =>
    intro a
    rw [List.foldl_cons, List.foldl_cons, ih, ih (0 + count_ones x)]
    omega

theorem chunks_count : ∀ (k : Nat) (l : List Bool),
    (((chunks32 l).map toBlockNat).take k).foldl (fun n b => n + count_ones b) 0 =
      (l.take (32 * k)).count true := by
  intro k
  induction k with
  | zero => intro l; simp
  | succ k ih =>
    intro l
    by_cases hl : l = []
    · subst hl
      rw [chunks32]
      simp
    · rw [show chunks32 l = l.take 32 :: chunks32 (l.drop 32) from by rw [chunks32, dif_neg hl]]
      rw [List.map_cons, List.take_succ_cons, List.foldl_cons]
      rw [foldl_add_count_ones]
      rw [Nat.zero_add, count_ones_toBlockNat, ih]
      rw [show 32 * (k + 1) = 32 + 32 * k by ring, List.take_add]
      rw [List.count_append]

theorem foldl_add_rangeCount (l : List Bool) : ∀ (k a : Nat) (x : Nat),
    (List.range' a k).foldl (fun n bit_pos => if l.get? bit_pos = some true then n + 1 else n) x =
      x + ((l.drop a).take k).count true := by
  intro k
  induction k with
  | zero => intro a x; simp
  | succ k ih =>
    intro a x
    rw [List.range'_succ, List.foldl_cons]
    by_cases ha : a < l.length
    · rw [List.drop_eq_getElem_cons ha, List.take_succ_cons, List.count_cons]
      by_cases hb : l[a] = true
      · rw [if_pos (by rw [List.get?_eq_getElem?, List.getElem?_eq_getElem ha, hb])]
        rw [ih (a + 1) (x + 1)]
        simp [hb]
        omega
      · rw [if_neg (by rw [List.get?_eq_getElem?, List.getElem?_eq_getElem ha]; simp [hb])]
        rw [ih (a + 1) x]
        have : (l[a] == true) = false := by simp [hb]
        rw [this]
        simp
    · rw [if_neg (by rw [List.get?_eq_getElem?, List.getElem?_eq_none (by omega)]; simp)]
      rw [ih (a + 1) x]
      rw [List.drop_eq_nil_of_le (by omega), List.drop_eq_nil_of_le (by omega)]
      simp

theorem rank_one_eq {v : BitVecWrap} {pos : Nat} (h : pos ≤ v.length) :
    rank_one v pos = some ((v.take pos).count true) := by
  have hshow : rank_one v pos = if pos > v.length then none else
      some (List.foldl (fun n bit_pos => if v.get? bit_pos = some true then n + 1 else n)
        (List.foldl (fun nr_bits block => nr_bits + count_ones block) 0
          ((blocks v).take (pos / 32)))
        (List.range' (pos - pos % 32) (pos - (pos - pos % 32)))) := rfl
  rw [hshow, if_neg (by omega)]
  rw [show blocks v = (chunks32 v).map toBlockNat from rfl]
  rw [chunks_count (pos / 32) v]
  rw [foldl_add_rangeCount]
  rw [show pos - pos % 32 = 32 * (pos / 32) by omega]
  rw [← List.count_append, ← List.take_add]
  rw [show 32 * (pos / 32) + (pos - 32 * (pos / 32)) = pos by omega]

theorem count_false_add_count_true : ∀ l : List Bool, l.count false + l.count true = l.length := by
  intro l
  induction l with
  | nil => rfl
  | cons b l ih =>
    rw [List.count_cons, List.count_cons, List.length_cons]
    cases b <;> simp <;> omega

theorem rank_eq {v : BitVecWrap} {pos : Nat} (b : Bool) (h : pos ≤ v.length) :
    rank v b pos = some ((v.take pos).count b) := by
  cases b with
  | true => exact rank_one_eq h
  | false =>
    unfold rank rank_zero
    by_cases hp : pos = 0
    · subst hp; simp
    · rw [if_neg hp, rank_one_eq h]
      simp only [Option.map_some', Option.some.injEq]
      have h1 := count_false_add_count_true (v.take pos)
      have h2 : (v.take pos).length = pos := by
        rw [List.length_take]; omega
      omega

end BitVecWrap

namespace BitVecWrap

theorem selectGo_some_spec (bit : Bool) (k : Nat) : ∀ (l : List Bool) (c p : Nat), c < k →
    selectGo bit k l c = some p →
    l.get? p = some bit ∧ (l.take p).count bit + c + 1 = k := by
  intro l
  induction l with
  | nil => intro c p hc h; simp [selectGo] at h
  | cons x xs ih =>
    intro c p hc h
    rw [selectGo] at h
    by_cases hhit : (if x = bit then c + 1 else c) = k
    · rw [if_pos hhit] at h
      obtain rfl : p = 0 := by simpa using h.symm
      have hx : x = bit := by
        by_cases hxb : x = bit
        · exact hxb
        · rw [if_neg hxb] at hhit; omega
      refine ⟨by simp [hx], ?_⟩
      rw [if_pos hx] at hhit
      simp
      omega
    · rw [if_neg hhit] at h
      obtain ⟨p', hp', rfl⟩ := Option.map_eq_some'.mp h
      have hc' : (if x = bit then c + 1 else c) < k := by
        by_cases hxb : x = bit <;> simp [hxb] at hhit ⊢ <;> omega
      obtain ⟨hg, hcount⟩ := ih _ p' hc' hp'
      refine ⟨by simpa using hg, ?_⟩
      rw [List.take_succ_cons, List.count_cons]
      by_cases hxb : x = bit
      · rw [if_pos hxb] at hcount
        simp [hxb]
        omega
      · rw [if_neg hxb] at hcount
        have : (x == bit) = false := by simp [hxb]
        rw [this]
        simp
        omega

theorem selectGo_none_of_count_lt (bit : Bool) (k : Nat) : ∀ (l : List Bool) (c : Nat),
    c + l.count bit < k → selectGo bit k l c = none := by
  intro l
  induction l with
  | nil => intro c h; rfl
  | cons x xs ih =>
    intro c h
    rw [selectGo]
    rw [List.count_cons] at h
    have hne : (if x = bit then c + 1 else c) ≠ k := by
      by_cases hxb : x = bit <;> simp [hxb] at h ⊢ <;> omega
    rw [if_neg hne]
    rw [ih]
    · rfl
    · by_cases hxb : x = bit <;> simp [hxb] at h ⊢ <;> omega

theorem selectGo_none_of_lt (bit : Bool) (k : Nat) : ∀ (l : List Bool) (c : Nat),
    k < c → selectGo bit k l c = none := by
  intro l
  induction l with
  | nil => intro c h; rfl
  | cons x xs ih =>
    intro c h
    rw [selectGo]
    have hne : (if x = bit then c + 1 else c) ≠ k := by
      by_cases hxb : x = bit <;> simp [hxb] <;> omega
    rw [if_neg hne, ih]
    · rfl
    · by_cases hxb : x = bit <;> simp [hxb] <;> omega

end BitVecWrap

/-- C7: whenever `select(b, k)` with `k ≥ 1` returns a position `p`, then
`rank(b, p)` counts exactly `k - 1` earlier occurrences of `b` and the bit
at `p` is `b`. -/
theorem select_rank_get (v : BitVecWrap) (b : Bool) (k p : Nat) (hk : 1 ≤ k)
    (hs : BitVecWrap.select v b k = some p) :
    BitVecWrap.rank v b p = some (k - 1) ∧ BitVecWrap.get v p = some b := by
  obtain ⟨hg, hcount⟩ := BitVecWrap.selectGo_some_spec b k v 0 p (by omega) hs
  have hp : p < v.length := by
    rw [List.get?_eq_getElem?] at hg
    exact (List.getElem?_eq_some.mp hg).1
  refine ⟨?_, hg⟩
  rw [BitVecWrap.rank_eq b (le_of_lt hp)]
  congr 1
  omega

/-- Witness for C7: in `[false, true]`, the first `true` is at position 1;
`rank(true, 1) = 0` and `get(1) = true`. -/
theorem select_rank_get_witness :
    BitVecWrap.rank [false, true] true 1 = some 0 ∧
      BitVecWrap.get [false, true] 1 = some true :=
  select_rank_get [false, true] true 1 1 (by decide) (by decide)

/-- C10: `select(b, 0)` (outside the spec's `k ≥ 1` precondition) returns
`some 0` exactly when the vector is non-empty and its first bit differs
from `b`; it returns `none` on the empty vector or when the first bit
equals `b`. -/
theorem select_zero (v : BitVecWrap) (b : Bool) :
    BitVecWrap.select v b 0 =
      match v with
      | [] => none
      | x :: _ => if x = b then none else some 0 := by
  cases v with
  | nil => rfl
  | cons x xs =>
    rw [BitVecWrap.select, BitVecWrap.selectGo]
    by_cases hxb : x = b
    · rw [if_pos hxb]
      rw [if_neg (by omega : ¬(0 + 1 = 0))]
      rw [BitVecWrap.selectGo_none_of_lt b 0 xs (0 + 1) (by omega)]
      simp [hxb]
    · rw [if_neg hxb]
      rw [if_pos rfl]
      simp [hxb]

/-- C6 counterexample: `delete` at an out-of-range index (`1 ≥ len([true])`)
does NOT fail: the source's shifting loop runs zero times and the trailing
`pop()` silently removes the last bit, leaving a corrupted (shortened)
vector instead of panicking. -/
theorem delete_oob_silent :
    BitVecWrap.delete [true] 1 = ([] : BitVecWrap) ∧ ([] : BitVecWrap) ≠ [true] := by
  constructor
  · rfl
  · decide

/-- C6 amended: out-of-range `set`, `insert` and `different_suffix` fail
loudly (modelled: `none`), and out-of-range `get` and an unsatisfiable
`select` return the explicit not-found value; but out-of-range `delete`
does not fail — it silently removes the last bit (`dropLast`). -/
theorem oob_behavior (v : BitVecWrap) (i k : Nat) (b : Bool)
    (h : v.length ≤ i) (hk : v.count b < k) :
    BitVecWrap.set? v i b = none ∧
    BitVecWrap.insert? v (i + 1) b = none ∧
    BitVecWrap.different_suffix v i = none ∧
    BitVecWrap.get v i = none ∧
    BitVecWrap.select v b k = none ∧
    BitVecWrap.delete v i = v.dropLast := by
  refine ⟨?_, ?_, ?_, ?_, ?_, ?_⟩
  · rw [BitVecWrap.set?, if_neg (by omega)]
  · exact BitVecWrap.insert?_none b (by omega)
  · exact BitVecWrap.different_suffix_none h
  · rw [BitVecWrap.get, List.get?_eq_getElem?, List.getElem?_eq_none h]
  · exact BitVecWrap.selectGo_none_of_count_lt b k v 0 (by omega)
  · exact BitVecWrap.delete_oob h

/-- Witness for C6 amended at `v = [true]`, `i = 1`, `b = false`, `k = 1`. -/
theorem oob_behavior_witness :
    BitVecWrap.set? [true] 1 false = none ∧
    BitVecWrap.insert? [true] 2 false = none ∧
    BitVecWrap.different_suffix [true] 1 = none ∧
    BitVecWrap.get [true] 1 = none ∧
    BitVecWrap.select [true] false 1 = none ∧
    BitVecWrap.delete [true] 1 = [true].dropLast :=
  oob_behavior [true] 1 1 false (by decide) (by decide)

namespace BitVecWrap

theorem chunks32_ne {l : List Bool} (h : l ≠ []) :
    chunks32 l = l.take 32 :: chunks32 (l.drop 32) := by
  rw [chunks32, dif_neg h]

theorem chunks32_nil : chunks32 [] = [] := by rw [chunks32]; rfl

theorem toBlockNat_lt : ∀ l : List Bool, toBlockNat l < 2 ^ l.length := by
  intro l
  induction l with
  | nil => simp [toBlockNat_nil]
  | cons b l ih =>
    rw [toBlockNat_cons, List.length_cons]
    have h2 : (2:Nat) ^ (l.length + 1) = 2 * 2 ^ l.length := by ring
    rw [h2]
    have hb : (if b then 1 else 0) ≤ 1 := by cases b <;> simp
    omega

theorem toBlockNat_mod : ∀ (l : List Bool) (r : Nat),
    toBlockNat l % 2 ^ r = toBlockNat (l.take r) := by
  intro l
  induction l with
  | nil => intro r; simp [toBlockNat_nil]
  | cons b l ih =>
    intro r
    cases r with
    | zero => simp [Nat.mod_one, toBlockNat_nil]
    | succ r =>
      rw [List.take_succ_cons, toBlockNat_cons, toBlockNat_cons, ← ih r]
      have hb : (if b then 1 else 0) ≤ 1 := by cases b <;> simp
      have h2 : (2:Nat) ^ (r + 1) = 2 * 2 ^ r := by ring
      rw [h2]
      have hdm := Nat.div_add_mod (toBlockNat l) (2 ^ r)
      have hlt : toBlockNat l % 2 ^ r < 2 ^ r := Nat.mod_lt _ (Nat.pos_pow_of_pos r (by omega))
      have hrw : (if b then 1 else 0) + 2 * toBlockNat l =
          ((if b then 1 else 0) + 2 * (toBlockNat l % 2 ^ r)) + (toBlockNat l / 2 ^ r) * (2 * 2 ^ r) := by
        have hprod : (toBlockNat l / 2 ^ r) * (2 * 2 ^ r) = 2 * (2 ^ r * (toBlockNat l / 2 ^ r)) := by
          ring
        omega
      rw [hrw, Nat.add_mul_mod_self_right]
      exact Nat.mod_eq_of_lt (by omega)

theorem toBlockNat_inj : ∀ (a b : List Bool), a.length = b.length →
    toBlockNat a = toBlockNat b → a = b := by
  intro a
  induction a with
  | nil =>
    intro b hl _
    exact (List.length_eq_zero.mp hl.symm).symm
  | cons x xs ih =>
    intro b hl he
    cases b with
    | nil => simp at hl
    | cons y ys =>
      rw [toBlockNat_cons, toBlockNat_cons] at he
      have hx : (if x then 1 else 0) ≤ 1 := by cases x <;> simp
      have hy : (if y then 1 else 0) ≤ 1 := by cases y <;> simp
      have hxy : x = y := by
        cases x <;> cases y <;> simp at he ⊢ <;> omega
      subst hxy
      have : toBlockNat xs = toBlockNat ys := by
        cases x <;> simp at he <;> omega
      rw [ih ys (by simpa using hl) this]

theorem toBlockNat_append : ∀ (a b : List Bool),
    toBlockNat (a ++ b) = toBlockNat a + 2 ^ a.length * toBlockNat b := by
  intro a b
  induction a with
  | nil => simp [toBlockNat_nil]
  | cons x xs ih =>
    rw [List.cons_append, toBlockNat_cons, toBlockNat_cons, ih, List.length_cons]
    have h2 : (2:Nat) ^ (xs.length + 1) = 2 * 2 ^ xs.length := by ring
    rw [h2]
    ring

theorem toBlockNat_eq_of_le {a b : List Bool} (hl : a.length ≤ b.length)
    (he : toBlockNat a = toBlockNat b) : a = b.take a.length := by
  have hsplit : b = b.take a.length ++ b.drop a.length := (List.take_append_drop ..).symm
  have henc : toBlockNat b = toBlockNat (b.take a.length) +
      2 ^ (b.take a.length).length * toBlockNat (b.drop a.length) := by
    conv_lhs => rw [hsplit]
    exact toBlockNat_append ..
  have hlen : (b.take a.length).length = a.length := by
    rw [List.length_take]; omega
  rw [hlen] at henc
  have hlt1 : toBlockNat a < 2 ^ a.length := toBlockNat_lt a
  have hz : toBlockNat (b.drop a.length) = 0 := by
    by_contra hz
    have : 2 ^ a.length ≤ toBlockNat b := by
      rw [henc]
      have : 1 ≤ toBlockNat (b.drop a.length) := by omega
      calc 2 ^ a.length = 2 ^ a.length * 1 := by ring
      _ ≤ 2 ^ a.length * toBlockNat (b.drop a.length) := by
          exact Nat.mul_le_mul_left _ this
      _ ≤ _ := by omega
    omega
  rw [hz] at henc
  simp at henc
  exact toBlockNat_inj a _ hlen.symm (by omega)

theorem mask_shift {b2 rem : Nat} (hb : b2 < 2 ^ 32) (hr : rem ≤ 32) :
    b2 * 2 ^ rem % 2 ^ 32 / 2 ^ rem = b2 % 2 ^ (32 - rem) := by
  have hpow : (2:Nat) ^ (32 - rem) * 2 ^ rem = 2 ^ 32 := by
    rw [← pow_add]
    congr 1
    omega
  have hdm := Nat.div_add_mod b2 (2 ^ (32 - rem))
  have hlt : b2 % 2 ^ (32 - rem) < 2 ^ (32 - rem) :=
    Nat.mod_lt _ (Nat.pos_pow_of_pos _ (by omega))
  have hrw : b2 * 2 ^ rem = (b2 / 2 ^ (32 - rem)) * 2 ^ 32 + (b2 % 2 ^ (32 - rem)) * 2 ^ rem := by
    calc b2 * 2 ^ rem = (2 ^ (32 - rem) * (b2 / 2 ^ (32 - rem)) + b2 % 2 ^ (32 - rem)) * 2 ^ rem := by
          rw [hdm]
    _ = (b2 / 2 ^ (32 - rem)) * (2 ^ (32 - rem) * 2 ^ rem) + (b2 % 2 ^ (32 - rem)) * 2 ^ rem := by
          ring
    _ = _ := by rw [hpow]
  rw [hrw]
  rw [Nat.add_comm, Nat.add_mul_mod_self_right]
  rw [Nat.mod_eq_of_lt (by
    calc (b2 % 2 ^ (32 - rem)) * 2 ^ rem < 2 ^ (32 - rem) * 2 ^ rem :=
          (Nat.mul_lt_mul_right (Nat.pos_pow_of_pos _ (by omega))).mpr hlt
    _ = 2 ^ 32 := hpow)]
  exact Nat.mul_div_cancel _ (Nat.pos_pow_of_pos _ (by omega))

theorem prefix_drop_iff {P V : List Bool} (h32 : 32 ≤ P.length)
    (hPV : P.length ≤ V.length) (htake : P.take 32 = V.take 32) :
    (P <+: V ↔ P.drop 32 <+: V.drop 32) := by
  conv_lhs => rw [show P = P.take 32 ++ P.drop 32 from (List.take_append_drop ..).symm,
    show V = V.take 32 ++ V.drop 32 from (List.take_append_drop ..).symm]
  rw [htake]
  exact List.prefix_append_right_inj _

end BitVecWrap

namespace BitVecWrap

theorem ipoGo_spec : ∀ (n : Nat) (P V : List Bool) (c : Nat), P.length ≤ 32 * n →
    1 ≤ c → P.length ≤ V.length →
    (ipoGo (32 * (c - 1) + P.length)
        (List.zip ((chunks32 P).map toBlockNat) ((chunks32 V).map toBlockNat)) c = true
      ↔ P <+: V) := by
  intro n
  induction n with
  | zero =>
    intro P V c hn hc hPV
    have hP : P = [] := List.length_eq_zero.mp (by omega)
    subst hP
    rw [chunks32_nil]
    simp [ipoGo, List.nil_prefix]
  | succ n ih =>
    intro P V c hn hc hPV
    by_cases hPnil : P = []
    · subst hPnil
      rw [chunks32_nil]
      simp [ipoGo, List.nil_prefix]
    · have hVnil : V ≠ [] := by
        intro hV
        subst hV
        simp only [List.length_nil] at hPV
        exact hPnil (List.length_eq_zero.mp (by omega))
      rw [chunks32_ne hPnil, chunks32_ne hVnil, List.map_cons, List.map_cons,
        List.zip_cons_cons]
      rw [ipoGo]
      by_cases hEq : toBlockNat (P.take 32) = toBlockNat (V.take 32)
      · rw [if_neg (by simpa using hEq)]
        by_cases h32 : 32 ≤ P.length
        · have htake : P.take 32 = V.take 32 := by
            apply toBlockNat_inj _ _ _ hEq
            rw [List.length_take, List.length_take]
            omega
          have hrec := ih (P.drop 32) (V.drop 32) (c + 1)
            (by rw [List.length_drop]; omega) (by omega)
            (by rw [List.length_drop, List.length_drop]; omega)
          rw [show 32 * (c + 1 - 1) + (P.drop 32).length = 32 * (c - 1) + P.length from by
            rw [List.length_drop]; omega] at hrec
          rw [hrec]
          exact (prefix_drop_iff h32 hPV htake).symm
        · have hPfull : P.take 32 = P := List.take_of_length_le (by omega)
          have hdrop : P.drop 32 = [] := List.drop_eq_nil_of_le (by omega)
          rw [hdrop, chunks32_nil]
          simp only [List.map_nil, List.zip_nil_left]
          rw [ipoGo]
          have hpre : P <+: V := by
            rw [hPfull] at hEq
            have hlenle : P.length ≤ (V.take 32).length := by
              rw [List.length_take]; omega
            have := toBlockNat_eq_of_le hlenle hEq
            rw [List.take_take] at this
            rw [show min P.length 32 = P.length by omega] at this
            exact (@List.prefix_iff_eq_take _ P V).mpr this
          simp [hpre]
      · rw [if_pos (by simpa using hEq)]
        by_cases h32 : 32 ≤ P.length
        · have hdiv : (32 * (c - 1) + P.length) / 32 = c - 1 + P.length / 32 :=
            Nat.mul_add_div (by omega) _ _
          have hge : 1 ≤ P.length / 32 := (Nat.one_le_div_iff (by omega)).mpr h32
          rw [if_pos (by omega)]
          constructor
          · intro h; cases h
          · intro hpre
            exfalso
            apply hEq
            have : P = V.take P.length := List.prefix_iff_eq_take.mp hpre
            have htake : P.take 32 = V.take 32 := by
              rw [this, List.take_take, show min 32 P.length = 32 by omega]
            rw [htake]
        · have hP1 : 1 ≤ P.length := by
            have := List.length_pos.mpr hPnil
            omega
          have hdiv : (32 * (c - 1) + P.length) / 32 = c - 1 :=  by
            rw [Nat.mul_add_div (by omega)]
            rw [Nat.div_eq_of_lt (by omega)]
            omega
          rw [if_neg (by omega)]
          have hmod : (32 * (c - 1) + P.length) % 32 = P.length := by
            rw [Nat.mul_add_mod]
            exact Nat.mod_eq_of_lt (by omega)
          rw [hmod]
          rw [if_neg (by omega)]
          have hb2lt : toBlockNat (V.take 32) < 2 ^ 32 := by
            have := toBlockNat_lt (V.take 32)
            have hl : (V.take 32).length ≤ 32 := by rw [List.length_take]; omega
            calc toBlockNat (V.take 32) < 2 ^ (V.take 32).length := this
            _ ≤ 2 ^ 32 := Nat.pow_le_pow_right (by omega) hl
          rw [mask_shift hb2lt (by omega)]
          rw [show 32 - (32 - P.length) = P.length by omega]
          rw [toBlockNat_mod, List.take_take, show min P.length 32 = P.length by omega]
          have hPfull : P.take 32 = P := List.take_of_length_le (by omega)
          rw [hPfull]
          rw [decide_eq_true_iff]
          constructor
          · intro hencs
            have hlen : (V.take P.length).length = P.length := by
              rw [List.length_take]; omega
            have := toBlockNat_inj _ _ hlen hencs
            exact List.prefix_iff_eq_take.mpr this.symm
          · intro hpre
            rw [← List.prefix_iff_eq_take.mp hpre]

theorem is_prefix_of_iff (p v : BitVecWrap) :
    is_prefix_of p v = true ↔ p <+: v := by
  unfold is_prefix_of
  by_cases hl : p.length > v.length
  · rw [if_pos hl]
    constructor
    · intro h; cases h
    · intro hpre
      exfalso
      have := List.IsPrefix.length_le hpre
      omega
  · rw [if_neg hl]
    have := ipoGo_spec (p.length) p v 1 (by omega) (le_refl 1) (by omega)
    rw [show 32 * (1 - 1) + p.length = p.length by omega] at this
    exact this

end BitVecWrap

/-- C8: the block-wise `is_prefix_of` (with trailing-bit masking of the
last partial block) agrees exactly with the bit-by-bit definition:
`p` is a prefix of `v` iff `p.len() ≤ v.len()` and the two vectors agree at
every index below `p.len()`. -/
theorem is_prefix_of_spec (p v : BitVecWrap) :
    BitVecWrap.is_prefix_of p v = true ↔
      (p.length ≤ v.length ∧ ∀ i, i < p.length → p.get? i = v.get? i) := by
  rw [BitVecWrap.is_prefix_of_iff]
  constructor
  · intro hpre
    refine ⟨List.IsPrefix.length_le hpre, ?_⟩
    intro i hi
    have heq : p = v.take p.length := List.prefix_iff_eq_take.mp hpre
    rw [List.get?_eq_getElem?, List.get?_eq_getElem?]
    conv_lhs => rw [heq]
    rw [List.getElem?_take, if_pos hi]
  · rintro ⟨hlen, hpt⟩
    rw [List.prefix_iff_eq_take]
    apply List.ext_getElem?
    intro j
    by_cases hj : j < p.length
    · rw [List.getElem?_take, if_pos hj]
      have := hpt j hj
      rw [List.get?_eq_getElem?, List.get?_eq_getElem?] at this
      exact this
    · rw [List.getElem?_take, if_neg hj, List.getElem?_eq_none (by omega)]

namespace BitVecWrap

theorem is_prefix_of_true_eval {p v : BitVecWrap} (h : p <+: v) : is_prefix_of p v = true :=
  (is_prefix_of_iff p v).mpr h

theorem is_prefix_of_false_eval {p v : BitVecWrap} (h : ¬ p <+: v) : is_prefix_of p v = false := by
  rw [Bool.eq_false_iff]
  intro hcontra
  exact h ((is_prefix_of_iff p v).mp hcontra)

theorem rank_zero_eval {v : BitVecWrap} {pos : Nat} (h : pos ≤ v.length) :
    rank_zero v pos = some (pos - (v.take pos).count true) := by
  by_cases hp : pos = 0
  · subst hp; simp [rank_zero]
  · rw [rank_zero, if_neg hp, rank_one_eq h, Option.map_some']

end BitVecWrap

/-- C1 (code defect): in the trie holding exactly `00` and `01` (built by two
successful inserts from the empty trie), inserting `001` — of which the
stored `00` is a strict prefix — is silently accepted: the route for `001`
reaches the left grand-child leaf that stores the exhausted suffix of `00`
with an EMPTY prefix, and the insertion code treats that occupied leaf as
the Empty state (it checks only `prefix.is_empty() && left.is_none()`),
overwrites its prefix and returns `Ok`, growing `len()` to 3 instead of
failing with a PrefixConflict. -/
theorem prefix_conflict_silently_accepted :
    WaveletTrie.insert WaveletTrie.new [false, false] 0 =
      some (WaveletTrie.node [false, false] [false] none none, Except.ok ()) ∧
    WaveletTrie.insert (WaveletTrie.node [false, false] [false] none none) [false, true] 1 =
      some (WaveletTrie.node [false] [false, true]
        (some (WaveletTrie.node [] [false] none none))
        (some (WaveletTrie.node [] [false] none none)), Except.ok ()) ∧
    WaveletTrie.contents (WaveletTrie.node [false] [false, true]
        (some (WaveletTrie.node [] [false] none none))
        (some (WaveletTrie.node [] [false] none none))) =
      some [[false, false], [false, true]] ∧
    WaveletTrie.insert (WaveletTrie.node [false] [false, true]
        (some (WaveletTrie.node [] [false] none none))
        (some (WaveletTrie.node [] [false] none none))) [false, false, true] 2 =
      some (WaveletTrie.node [false] [false, true, false]
        (some (WaveletTrie.node [true] [false, false] none none))
        (some (WaveletTrie.node [] [false] none none)), Except.ok ()) ∧
    WaveletTrie.len (WaveletTrie.node [false] [false, true, false]
        (some (WaveletTrie.node [true] [false, false] none none))
        (some (WaveletTrie.node [] [false] none none))) = 3 ∧
    [false, false] <+: [false, false, true] := by
  refine ⟨?_, ?_, ?_, ?_, ?_, ?_⟩
  · simp [WaveletTrie.insert, WaveletTrie.new, BitVecWrap.copy, BitVecWrap.push]
  · have h1 : BitVecWrap.is_prefix_of [false, true] [false, false] = false :=
      BitVecWrap.is_prefix_of_false_eval (by decide)
    have h2 : BitVecWrap.is_prefix_of [false, false] [false, true] = false :=
      BitVecWrap.is_prefix_of_false_eval (by decide)
    have h3 : BitVecWrap.insert? [false] 1 true = some [false, true] := by
      rw [BitVecWrap.insert?_eq true (by decide)]; rfl
    simp [WaveletTrie.insert, h1, h2, h3, BitVecWrap.lcp, BitVecWrap.lcpLoop,
      BitVecWrap.different_suffix, BitVecWrap.from_elem]
  · simp [WaveletTrie.contents, WaveletTrie.merge]
  · have h1 : BitVecWrap.is_prefix_of [false, false, true] [false] = false :=
      BitVecWrap.is_prefix_of_false_eval (by decide)
    have h2 : BitVecWrap.is_prefix_of [false] [false, false, true] = true :=
      BitVecWrap.is_prefix_of_true_eval (by decide)
    have h3 : BitVecWrap.insert? [false, true] 2 false = some [false, true, false] := by
      rw [BitVecWrap.insert?_eq false (by decide)]; rfl
    have h4 : BitVecWrap.rank_zero [false, true, false] 2 = some 1 := by
      rw [BitVecWrap.rank_zero_eval (by decide)]; rfl
    simp [WaveletTrie.insert, WaveletTrie.insert_to_child, h1, h2, h3, h4,
      BitVecWrap.different_suffix, BitVecWrap.copy, BitVecWrap.push]
  · rfl
  · decide

/-- C2 counterexample: in the trie holding `000` and `011`
(root prefix `0`, two leaf children `0` and `1`), inserting `01` — a strict
prefix of the stored `011` — correctly returns a PrefixConflict error, but
only AFTER `insert_to_child` has already inserted the routing bit into the
root's `positions` bitmap; the error does not roll that back, so `len()`
grows from 2 to 3 on a failed insert. -/
theorem insert_error_mutates :
    WaveletTrie.insert
        (WaveletTrie.node [false] [false, true]
          (some (WaveletTrie.node [false] [false] none none))
          (some (WaveletTrie.node [true] [false] none none)))
        [false, true] 2 =
      some (WaveletTrie.node [false] [false, true, true]
          (some (WaveletTrie.node [false] [false] none none))
          (some (WaveletTrie.node [true] [false] none none)),
        Except.error "The string being inserded is a prefix of a string in the trie, which is not allowed. (5)") ∧
    WaveletTrie.len (WaveletTrie.node [false] [false, true]
        (some (WaveletTrie.node [false] [false] none none))
        (some (WaveletTrie.node [true] [false] none none))) = 2 ∧
    WaveletTrie.len (WaveletTrie.node [false] [false, true, true]
        (some (WaveletTrie.node [false] [false] none none))
        (some (WaveletTrie.node [true] [false] none none))) = 3 := by
  refine ⟨?_, rfl, rfl⟩
  have h1 : BitVecWrap.is_prefix_of [false, true] [false] = false :=
    BitVecWrap.is_prefix_of_false_eval (by decide)
  have h2 : BitVecWrap.is_prefix_of [false] [false, true] = true :=
    BitVecWrap.is_prefix_of_true_eval (by decide)
  have h3 : BitVecWrap.insert? [false, true] 2 true = some [false, true, true] := by
    rw [BitVecWrap.insert?_eq true (by decide)]; rfl
  have h4 : BitVecWrap.rank_one [false, true, true] 2 = some 1 := by
    rw [BitVecWrap.rank_one_eq (by decide)]; rfl
  simp [WaveletTrie.insert, WaveletTrie.insert_to_child, h1, h2, h3, h4,
    BitVecWrap.different_suffix]

/-- C2 amended: an error detected at the root node itself leaves the trie
unchanged; in particular this holds for every error returned when the root
has no left child (for a childless root every prefix-conflict error is
root-detected). Errors raised deeper, inside a child, leave the routing
bits inserted on the path (see the counterexample). -/
theorem insert_error_rootless_unchanged (pfx positions : BitVecWrap) (r : Option WaveletTrie)
    (s : BitVecWrap) (i : Nat) (t' : WaveletTrie) (msg : String)
    (h : WaveletTrie.insert (WaveletTrie.node pfx positions none r) s i =
      some (t', Except.error msg)) :
    t' = WaveletTrie.node pfx positions none r := by
  rw [WaveletTrie.insert] at h
  by_cases hpfx : pfx = []
  · rw [if_pos hpfx] at h
    simp at h
  · rw [if_neg hpfx] at h
    by_cases hs : s = []
    · rw [if_pos hs] at h
      simp at h
      exact h.1.symm
    · rw [if_neg hs] at h
      by_cases heq : pfx = s
      · rw [if_pos heq] at h
        simp only [Option.isNone_none, if_true] at h
        split at h <;> simp at h
      · rw [if_neg heq] at h
        by_cases hp1 : BitVecWrap.is_prefix_of s pfx = true
        · rw [if_pos hp1] at h
          simp at h
          exact h.1.symm
        · rw [if_neg hp1] at h
          by_cases hp2 : BitVecWrap.is_prefix_of pfx s = true
          · rw [if_pos hp2] at h
            simp only [Option.isNone_none, if_true] at h
            simp at h
            exact h.1.symm
          · rw [if_neg hp2] at h
            simp only [] at h
            split at h <;> (try split at h) <;> simp at h

/-- Witness for the amended C2 theorem: a childless root `0` rejects the
empty sequence and is returned unchanged. -/
theorem insert_error_rootless_unchanged_witness :
    WaveletTrie.node [false] [false] none none = WaveletTrie.node [false] [false] none none :=
  insert_error_rootless_unchanged [false] [false] none [] 0
    (WaveletTrie.node [false] [false] none none)
    "The string being inserded is a prefix of a string in the trie, which is not allowed. (5)"
    (by simp [WaveletTrie.insert])

/-- C4 counterexample: inserting the empty sequence into the empty trie is
a successful insert (spec §4.2 case 1 allows it), and it produces a node
with EMPTY prefix, no children and one occurrence — a state the claim's
three-state machine does not admit. -/
theorem empty_insert_breaks_state_machine :
    WaveletTrie.insert WaveletTrie.new [] 0 =
      some (WaveletTrie.node [] [false] none none, Except.ok ()) ∧
    ¬ WaveletTrie.specStateMachine (WaveletTrie.node [] [false] none none) := by
  constructor
  · simp [WaveletTrie.insert, WaveletTrie.new, BitVecWrap.copy, BitVecWrap.push]
  · simp [WaveletTrie.specStateMachine]

namespace WaveletTrie

theorem shapeOk_leaf (pfx positions : BitVecWrap) :
    shapeOk (node pfx positions none none) ↔ ((pfx = [] ∧ positions = []) ∨ positions ≠ []) := by
  rw [shapeOk]

theorem shapeOk_both (pfx positions : BitVecWrap) (lt rt : WaveletTrie) :
    shapeOk (node pfx positions (some lt) (some rt)) ↔ shapeOk lt ∧ shapeOk rt := by
  rw [shapeOk]

theorem shapeOk_mixed_left (pfx positions : BitVecWrap) (rt : WaveletTrie) :
    ¬ shapeOk (node pfx positions none (some rt)) := by
  rw [shapeOk]
  · simp
  · intro a b heq
    simp at heq
  · intro a b c d heq
    simp at heq

theorem shapeOk_mixed_right (pfx positions : BitVecWrap) (lt : WaveletTrie) :
    ¬ shapeOk (node pfx positions (some lt) none) := by
  rw [shapeOk]
  · simp
  · intro a b heq
    simp at heq
  · intro a b c d heq
    simp at heq

end WaveletTrie

namespace BitVecWrap

theorem foldl_shiftStep_length : ∀ (R : List Nat) (l : List Bool),
    (List.foldl shiftStep l R).length = l.length := by
  intro R
  induction R with
  | nil => intro l; rfl
  | cons x xs ih =>
    intro l
    rw [List.foldl_cons, ih]
    unfold shiftStep
    split
    · split <;> simp
    · rfl

theorem insert?_length {v : BitVecWrap} {i : Nat} {b : Bool} {ps : BitVecWrap}
    (h : insert? v i b = some ps) : ps.length = v.length + 1 := by
  have hshow : insert? v i b =
      set? (List.foldl shiftStep (v ++ [false]) (List.range' i ((v ++ [false]).length - i)).reverse) i b := rfl
  rw [hshow] at h
  unfold set? at h
  split at h
  · have := Option.some.injEq .. |>.mp h
    rw [← this, List.length_set, foldl_shiftStep_length]
    simp
  · cases h

theorem insert?_ne_nil {v : BitVecWrap} {i : Nat} {b : Bool} {ps : BitVecWrap}
    (h : insert? v i b = some ps) : ps ≠ [] := by
  intro hnil
  have := insert?_length h
  rw [hnil] at this
  simp at this

theorem insert?_some_le {v : BitVecWrap} {i : Nat} {b : Bool} {ps : BitVecWrap}
    (h : insert? v i b = some ps) : i ≤ v.length := by
  by_contra hc
  rw [insert?_none b (by omega)] at h
  cases h

end BitVecWrap

namespace WaveletTrie

theorem shapeOk_insert_aux : ∀ (n : Nat) (t : WaveletTrie), sizeOf t ≤ n →
    ∀ (s : BitVecWrap) (i : Nat) (out : WaveletTrie × Except String Unit),
    shapeOk t → insert t s i = some out → shapeOk out.1 := by
  intro n
  induction n with
  | zero =>
    intro t hsz
    exfalso
    cases t with
    | node pfx positions l r => simp at hsz
  | succ n ih =>
    intro t hsz s i out hok h
    obtain ⟨pfx, positions, l, r⟩ := t
    rw [insert] at h
    by_cases hpfx : pfx = []
    · rw [if_pos hpfx] at h
      cases l with
      | none =>
        have hr : r = none := by
          cases r with
          | none => rfl
          | some rt => exact absurd hok (shapeOk_mixed_left _ _ _)
        subst hr
        rw [if_pos (by simp)] at h
        have hout : out = (node (BitVecWrap.copy s) (BitVecWrap.push positions false) none none, Except.ok ()) := by
          simpa using h.symm
        rw [hout]
        rw [shapeOk_leaf]
        right
        simp [BitVecWrap.push]
      | some lt =>
        have hr : ∃ rt, r = some rt := by
          cases r with
          | none => exact absurd hok (shapeOk_mixed_right _ _ _)
          | some rt => exact ⟨rt, rfl⟩
        obtain ⟨rt, rfl⟩ := hr
        rw [shapeOk_both] at hok
        obtain ⟨hokl, hokr⟩ := hok
        rw [if_neg (by simp)] at h
        by_cases hs : s = []
        · rw [if_pos hs] at h
          have hout : out = (node pfx positions (some lt) (some rt), Except.error "The string being inserded is a prefix of a string in the trie, which is not allowed. (1)") := by
            simpa using h.symm
          rw [hout, shapeOk_both]
          exact ⟨hokl, hokr⟩
        · rw [if_neg hs] at h
          rw [insert_to_child] at h
          cases hds : BitVecWrap.different_suffix s pfx.length with
          | none => rw [hds] at h; cases h
          | some bitsuf =>
            rw [hds] at h
            obtain ⟨bit, suffix⟩ := bitsuf
            dsimp only at h
            cases hbi : BitVecWrap.insert? positions i bit with
            | none => rw [hbi] at h; simp at h
            | some ps =>
              rw [hbi] at h
              dsimp only at h
              cases bit with
              | true =>
                simp only at h
                cases hro : BitVecWrap.rank_one ps i with
                | none => rw [hro] at h; simp at h
                | some np =>
                  rw [hro] at h
                  dsimp only at h
                  cases hrec : insert rt suffix np with
                  | none => rw [hrec] at h; simp at h
                  | some cres =>
                    rw [hrec] at h
                    dsimp only at h
                    obtain ⟨child', res⟩ := cres
                    have hchild : shapeOk child' := by
                      refine ih rt ?_ suffix np (child', res) hokr hrec
                      simp at hsz
                      omega
                    have hout : out = (node pfx ps (some lt) (some child'), res) := by
                      simpa using h.symm
                    rw [hout, shapeOk_both]
                    exact ⟨hokl, hchild⟩
              | false =>
                simp only at h
                cases hro : BitVecWrap.rank_zero ps i with
                | none => rw [hro] at h; simp at h
                | some np =>
                  rw [hro] at h
                  dsimp only at h
                  cases hrec : insert lt suffix np with
                  | none => rw [hrec] at h; simp at h
                  | some cres =>
                    rw [hrec] at h
                    dsimp only at h
                    obtain ⟨child', res⟩ := cres
                    have hchild : shapeOk child' := by
                      refine ih lt ?_ suffix np (child', res) hokl hrec
                      simp at hsz
                      omega
                    have hout : out = (node pfx ps (some child') (some rt), res) := by
                      simpa using h.symm
                    rw [hout, shapeOk_both]
                    exact ⟨hchild, hokr⟩
    · rw [if_neg hpfx] at h
      by_cases hs : s = []
      · rw [if_pos hs] at h
        have hout : out = (node pfx positions l r, Except.error "The string being inserded is a prefix of a string in the trie, which is not allowed. (5)") := by
          simpa using h.symm
        rw [hout]
        exact hok
      · rw [if_neg hs] at h
        by_cases heq : pfx = s
        · rw [if_pos heq] at h
          cases l with
          | none =>
            have hr : r = none := by
              cases r with
              | none => rfl
              | some rt => exact absurd hok (shapeOk_mixed_left _ _ _)
            subst hr
            rw [if_pos (by simp)] at h
            cases hbi : BitVecWrap.insert? positions i false with
            | none => rw [hbi] at h; cases h
            | some ps =>
              rw [hbi] at h
              dsimp only at h
              have hout : out = (node pfx ps none none, Except.ok ()) := by simpa using h.symm
              rw [hout, shapeOk_leaf]
              right
              exact BitVecWrap.insert?_ne_nil hbi
          | some lt =>
            have hr : ∃ rt, r = some rt := by
              cases r with
              | none => exact absurd hok (shapeOk_mixed_right _ _ _)
              | some rt => exact ⟨rt, rfl⟩
            obtain ⟨rt, rfl⟩ := hr
            rw [if_neg (by simp)] at h
            have hout : out = (node pfx positions (some lt) (some rt), Except.error "The string being inserded is a prefix of a string in the trie, which is not allowed. (2)") := by
              simpa using h.symm
            rw [hout]
            exact hok
        · rw [if_neg heq] at h
          by_cases hp1 : BitVecWrap.is_prefix_of s pfx = true
          · rw [if_pos hp1] at h
            have hout : out = (node pfx positions l r, Except.error "The string being inserded is a prefix of a string in the trie, which is not allowed. (3)") := by
              simpa using h.symm
            rw [hout]
            exact hok
          · rw [if_neg hp1] at h
            by_cases hp2 : BitVecWrap.is_prefix_of pfx s = true
            · rw [if_pos hp2] at h
              cases l with
              | none =>
                rw [if_pos (by simp)] at h
                have hout : out = (node pfx positions none r, Except.error "A string in the trie The string being inserded is a prefix of a , which is not allowed. (4)") := by
                  simpa using h.symm
                rw [hout]
                exact hok
              | some lt =>
                have hr : ∃ rt, r = some rt := by
                  cases r with
                  | none => exact absurd hok (shapeOk_mixed_right _ _ _)
                  | some rt => exact ⟨rt, rfl⟩
                obtain ⟨rt, rfl⟩ := hr
                rw [shapeOk_both] at hok
                obtain ⟨hokl, hokr⟩ := hok
                rw [if_neg (by simp)] at h
                rw [insert_to_child] at h
                cases hds : BitVecWrap.different_suffix s pfx.length with
                | none => rw [hds] at h; cases h
                | some bitsuf =>
                  rw [hds] at h
                  obtain ⟨bit, suffix⟩ := bitsuf
                  dsimp only at h
                  cases hbi : BitVecWrap.insert? positions i bit with
                  | none => rw [hbi] at h; simp at h
                  | some ps =>
                    rw [hbi] at h
                    dsimp only at h
                    cases bit with
                    | true =>
                      simp only at h
                      cases hro : BitVecWrap.rank_one ps i with
                      | none => rw [hro] at h; simp at h
                      | some np =>
                        rw [hro] at h
                        dsimp only at h
                        cases hrec : insert rt suffix np with
                        | none => rw [hrec] at h; simp at h
                        | some cres =>
                          rw [hrec] at h
                          dsimp only at h
                          obtain ⟨child', res⟩ := cres
                          have hchild : shapeOk child' := by
                            refine ih rt ?_ suffix np (child', res) hokr hrec
                            simp at hsz
                            omega
                          have hout : out = (node pfx ps (some lt) (some child'), res) := by
                            simpa using h.symm
                          rw [hout, shapeOk_both]
                          exact ⟨hokl, hchild⟩
                    | false =>
                      simp only at h
                      cases hro : BitVecWrap.rank_zero ps i with
                      | none => rw [hro] at h; simp at h
                      | some np =>
                        rw [hro] at h
                        dsimp only at h
                        cases hrec : insert lt suffix np with
                        | none => rw [hrec] at h; simp at h
                        | some cres =>
                          rw [hrec] at h
                          dsimp only at h
                          obtain ⟨child', res⟩ := cres
                          have hchild : shapeOk child' := by
                            refine ih lt ?_ suffix np (child', res) hokl hrec
                            simp at hsz
                            omega
                          have hout : out = (node pfx ps (some child') (some rt), res) := by
                            simpa using h.symm
                          rw [hout, shapeOk_both]
                          exact ⟨hchild, hokr⟩
            · rw [if_neg hp2] at h
              simp only [] at h
              cases hds1 : BitVecWrap.different_suffix pfx (BitVecWrap.lcp s pfx).length with
              | none => rw [hds1] at h; simp at h
              | some bs1 =>
                rw [hds1] at h
                obtain ⟨bit_self, suffix_self⟩ := bs1
                cases hds2 : BitVecWrap.different_suffix s (BitVecWrap.lcp s pfx).length with
                | none => rw [hds2] at h; simp at h
                | some bs2 =>
                  rw [hds2] at h
                  obtain ⟨bit_seq, suffix_seq⟩ := bs2
                  dsimp only at h
                  have horig : shapeOk (node suffix_self positions l r) := by
                    cases l with
                    | none =>
                      have hr : r = none := by
                        cases r with
                        | none => rfl
                        | some rt => exact absurd hok (shapeOk_mixed_left _ _ _)
                      subst hr
                      rw [shapeOk_leaf] at hok ⊢
                      right
                      rcases hok with ⟨h1, -⟩ | h2
                      · exact absurd h1 hpfx
                      · exact h2
                    | some lt =>
                      have hr : ∃ rt, r = some rt := by
                        cases r with
                        | none => exact absurd hok (shapeOk_mixed_right _ _ _)
                        | some rt => exact ⟨rt, rfl⟩
                      obtain ⟨rt, rfl⟩ := hr
                      rw [shapeOk_both] at hok ⊢
                      exact hok
                  have hleaf : shapeOk (node suffix_seq (BitVecWrap.from_elem 1 false) none none) := by
                    rw [shapeOk_leaf]
                    right
                    simp [BitVecWrap.from_elem]
                  cases hbi : BitVecWrap.insert? (BitVecWrap.from_elem positions.length bit_self) i bit_seq with
                  | none => rw [hbi] at h; cases bit_self <;> simp at h
                  | some ps =>
                    rw [hbi] at h
                    dsimp only at h
                    cases bit_self with
                    | false =>
                      simp only at h
                      have hout : out = (node (BitVecWrap.lcp s pfx) ps
                          (some (node suffix_self positions l r))
                          (some (node suffix_seq (BitVecWrap.from_elem 1 false) none none)),
                          Except.ok ()) := by
                        simpa using h.symm
                      rw [hout, shapeOk_both]
                      exact ⟨horig, hleaf⟩
                    | true =>
                      simp only at h
                      have hout : out = (node (BitVecWrap.lcp s pfx) ps
                          (some (node suffix_seq (BitVecWrap.from_elem 1 false) none none))
                          (some (node suffix_self positions l r)),
                          Except.ok ()) := by
                        simpa using h.symm
                      rw [hout, shapeOk_both]
                      exact ⟨hleaf, horig⟩

end WaveletTrie

namespace WaveletTrie

theorem seqSplit_sumLen : ∀ (p : Nat) (ss : List BitVecWrap) bs ls rs,
    seqSplit p ss = some (bs, ls, rs) →
    sumLen ls + ss.length ≤ sumLen ss ∧ sumLen rs + ss.length ≤ sumLen ss := by
  intro p ss
  induction ss with
  | nil =>
    intro bs ls rs h
    simp only [seqSplit, Option.some.injEq, Prod.mk.injEq] at h
    obtain ⟨-, h2, h3⟩ := h
    simp [← h2, ← h3, sumLen]
  | cons s rest ih =>
    intro bs ls rs h
    simp only [seqSplit] at h
    cases hds : BitVecWrap.different_suffix s p with
    | none => rw [hds] at h; cases h
    | some bitsuf =>
      rw [hds] at h
      obtain ⟨bit, suffix⟩ := bitsuf
      obtain ⟨b0, hb0, hfb⟩ := Option.map_eq_some'.mp hds
      have hp : p < s.length := (List.get?_eq_some.mp hb0).1
      have hsufdef : suffix = s.drop (p + 1) := (Prod.mk.injEq .. |>.mp hfb).2.symm
      have hsuf : suffix.length + 1 ≤ s.length := by
        subst hsufdef; simp [List.length_drop]; omega
      cases hrec : seqSplit p rest with
      | none => rw [hrec] at h; cases h
      | some triple =>
        rw [hrec] at h
        obtain ⟨bits', ls', rs'⟩ := triple
        obtain ⟨ih1, ih2⟩ := ih bits' ls' rs' hrec
        dsimp only at h
        split at h <;>
        · simp only [Option.some.injEq, Prod.mk.injEq] at h
          obtain ⟨-, hls, hrs⟩ := h
          subst hls; subst hrs
          simp only [sumLen, List.map_cons, List.sum_cons, List.length_cons] at *
          omega

theorem shapeOk_new : shapeOk new := by
  rw [new, shapeOk_leaf]
  exact Or.inl ⟨rfl, rfl⟩

theorem shapeOk_insert_static : ∀ (m : Nat) (seqs : List BitVecWrap), sumLen seqs ≤ m →
    ∀ t, insert_static seqs = some t → shapeOk t := by
  intro m
  induction m with
  | zero =>
    intro seqs hm t h
    rw [insert_static.eq_def] at h
    cases seqs with
    | nil =>
      simp at h
      rw [← h]
      exact shapeOk_new
    | cons first rest =>
      dsimp only at h
      by_cases hall : (first :: rest).all (fun s => s = first)
      · rw [dif_pos hall] at h
        simp at h
        rw [← h, shapeOk_leaf]
        right
        simp
      · rw [dif_neg hall] at h
        exfalso
        cases hs : seqSplit (List.length ((first :: rest).foldl (fun p s => BitVecWrap.lcp p s) first)) (first :: rest) with
        | none => rw [hs] at h; cases h
        | some triple =>
          rw [hs] at h
          obtain ⟨bs, ls, rs⟩ := triple
          have := seqSplit_sumLen _ _ _ _ _ hs
          simp only [List.length_cons] at this
          omega
  | succ m ih =>
    intro seqs hm t h
    rw [insert_static.eq_def] at h
    cases seqs with
    | nil =>
      simp at h
      rw [← h]
      exact shapeOk_new
    | cons first rest =>
      dsimp only at h
      by_cases hall : (first :: rest).all (fun s => s = first)
      · rw [dif_pos hall] at h
        simp at h
        rw [← h, shapeOk_leaf]
        right
        simp
      · rw [dif_neg hall] at h
        cases hs : seqSplit (List.length ((first :: rest).foldl (fun p s => BitVecWrap.lcp p s) first)) (first :: rest) with
        | none => rw [hs] at h; cases h
        | some triple =>
          rw [hs] at h
          obtain ⟨bs, ls, rs⟩ := triple
          dsimp only at h
          have hbound := seqSplit_sumLen _ _ _ _ _ hs
          simp only [List.length_cons] at hbound
          cases hl : insert_static ls with
          | none => rw [hl] at h; simp at h
          | some lc =>
            rw [hl] at h
            cases hr : insert_static rs with
            | none => rw [hr] at h; simp at h
            | some rc =>
              rw [hr] at h
              dsimp only at h
              have hlc : shapeOk lc := ih ls (by omega) lc hl
              have hrc : shapeOk rc := ih rs (by omega) rc hr
              simp only [Option.some.injEq] at h
              rw [← h, shapeOk_both]
              exact ⟨hlc, hrc⟩

end WaveletTrie

/-- C4 amended: every trie reachable from `new()` or `from_sequences` by
successful `insert`/`append` calls has every node in one of three states:
Empty (empty prefix, no children, zero occurrences), Leaf (no children,
at least one occurrence — with the amendment that its prefix MAY be empty,
namely when it stores occurrences of the empty/exhausted sequence), or
Internal (both children present); no node ever has exactly one child, and
no childless node has occurrences-zero with a non-empty prefix. -/
theorem reachable_state_machine (t : WaveletTrie) (h : WaveletTrie.Reachable t) :
    WaveletTrie.shapeOk t := by
  induction h with
  | base => exact WaveletTrie.shapeOk_new
  | bulk seqs t hseq =>
    exact WaveletTrie.shapeOk_insert_static (WaveletTrie.sumLen seqs) seqs (le_refl _) t hseq
  | step t s i t' hreach hins ih =>
    exact WaveletTrie.shapeOk_insert_aux (sizeOf t) t (le_refl _) s i (t', Except.ok ()) ih hins

/-- Witness for the amended C4 theorem at the empty trie. -/
theorem reachable_state_machine_witness : WaveletTrie.shapeOk WaveletTrie.new :=
  reachable_state_machine WaveletTrie.new WaveletTrie.Reachable.base

theorem insAt_length {α : Type} (l : List α) (i : Nat) (x : α) (h : i ≤ l.length) :
    (insAt l i x).length = l.length + 1 := by
  unfold insAt
  rw [List.length_append, List.length_cons, List.length_take, List.length_drop]
  omega

theorem insAt_take_le {α : Type} (l : List α) (i : Nat) (x : α) (h : i ≤ l.length) :
    (insAt l i x).take i = l.take i := by
  unfold insAt
  rw [List.take_append_of_le_length (by rw [List.length_take]; omega), List.take_take]
  simp

theorem insAt_take_succ {α : Type} (l : List α) (i : Nat) (x : α) (h : i ≤ l.length) :
    (insAt l i x).take (i + 1) = l.take i ++ [x] := by
  unfold insAt
  rw [List.take_append_eq_append_take]
  rw [show i + 1 - (l.take i).length = 1 by rw [List.length_take]; omega]
  rw [List.take_take, show min (i+1) i = i by omega]
  rfl

theorem insAt_count (l : List Bool) (i : Nat) (x b : Bool) (h : i ≤ l.length) :
    (insAt l i x).count b = l.count b + if x = b then 1 else 0 := by
  unfold insAt
  rw [List.count_append, List.count_cons]
  conv_rhs => rw [← List.take_append_drop i l, List.count_append]
  by_cases hx : x = b <;> simp [hx] <;> omega

theorem insAt_mem_self {α : Type} (l : List α) (i : Nat) (x : α) : x ∈ insAt l i x := by
  unfold insAt
  simp

theorem insAt_mem {α : Type} {l : List α} {i : Nat} {x y : α} (h : y ∈ insAt l i x) :
    y = x ∨ y ∈ l := by
  unfold insAt at h
  rw [List.mem_append, List.mem_cons] at h
  rcases h with h1 | h2 | h3
  · exact Or.inr (List.mem_of_mem_take h1)
  · exact Or.inl h2
  · exact Or.inr (List.mem_of_mem_drop h3)

theorem insAt_replicate_self {α : Type} (n i : Nat) (a : α) (h : i ≤ n) :
    insAt (List.replicate n a) i a = List.replicate (n + 1) a := by
  unfold insAt
  rw [List.take_replicate, List.drop_replicate]
  rw [show min i n = i by omega]
  rw [show (a :: List.replicate (n - i) a) = List.replicate (n - i + 1) a from rfl]
  rw [← List.replicate_add]
  congr 1
  omega

theorem map_insAt {α β : Type} (f : α → β) (l : List α) (i : Nat) (x : α) :
    (insAt l i x).map f = insAt (l.map f) i (f x) := by
  unfold insAt
  rw [List.map_append, List.map_cons, List.map_take, List.map_drop]

theorem prefix_length_lt {α : Type} {a b : List α} (h : a <+: b) (hne : a ≠ b) :
    a.length < b.length := by
  have hle := List.IsPrefix.length_le h
  by_cases heq : a.length = b.length
  · exfalso
    apply hne
    obtain ⟨t, rfl⟩ := h
    have : t = [] := by
      have := congrArg List.length (rfl : a ++ t = a ++ t)
      rw [List.length_append] at heq
      have : t.length = 0 := by omega
      exact List.length_eq_zero.mp this
    rw [this, List.append_nil]
  · omega

theorem prefix_decomp {pfx s : List Bool} (hpre : pfx <+: s) (hlt : pfx.length < s.length) :
    ∃ b, s.get? pfx.length = some b ∧ s = pfx ++ b :: s.drop (pfx.length + 1) := by
  obtain ⟨t, rfl⟩ := hpre
  have ht : t ≠ [] := by
    intro h
    rw [h] at hlt
    simp at hlt
  obtain ⟨b, t', rfl⟩ := List.exists_cons_of_ne_nil ht
  refine ⟨b, ?_, ?_⟩
  · rw [List.get?_eq_getElem?, List.getElem?_append_right (le_refl _)]
    simp
  · congr 1
    rw [List.drop_append_eq_append_drop]
    rw [show pfx.length + 1 - pfx.length = 1 by omega]
    rw [List.drop_eq_nil_of_le (by omega), List.drop_one]
    simp

namespace BitVecWrap

theorem lcpLoop_prefix_left : ∀ (a b : List Bool), lcpLoop a b <+: a := by
  intro a
  induction a with
  | nil => intro b; cases b <;> simp [lcpLoop]
  | cons x xs ih =>
    intro b
    cases b with
    | nil => simp [lcpLoop]
    | cons y ys =>
      rw [lcpLoop]
      by_cases hxy : x = y
      · rw [if_pos hxy]
        exact (List.prefix_cons_inj x).mpr (ih ys)
      · rw [if_neg hxy]
        exact List.nil_prefix

theorem lcpLoop_prefix_right : ∀ (a b : List Bool), lcpLoop a b <+: b := by
  intro a
  induction a with
  | nil => intro b; cases b <;> simp [lcpLoop]
  | cons x xs ih =>
    intro b
    cases b with
    | nil => simp [lcpLoop]
    | cons y ys =>
      rw [lcpLoop]
      by_cases hxy : x = y
      · rw [if_pos hxy, hxy]
        exact (List.prefix_cons_inj y).mpr (ih ys)
      · rw [if_neg hxy]
        exact List.nil_prefix

theorem lcpLoop_spec : ∀ (a b : List Bool), ¬ (a <+: b) → ¬ (b <+: a) →
    (lcpLoop a b).length < a.length ∧ (lcpLoop a b).length < b.length ∧
    a.get? (lcpLoop a b).length ≠ b.get? (lcpLoop a b).length := by
  intro a
  induction a with
  | nil => intro b hab _; exact absurd List.nil_prefix hab
  | cons x xs ih =>
    intro b hab hba
    cases b with
    | nil => exact absurd List.nil_prefix hba
    | cons y ys =>
      rw [lcpLoop]
      by_cases hxy : x = y
      · rw [if_pos hxy]
        subst hxy
        have h1 : ¬ (xs <+: ys) := fun hc => hab ((List.prefix_cons_inj x).mpr hc)
        have h2 : ¬ (ys <+: xs) := fun hc => hba ((List.prefix_cons_inj x).mpr hc)
        obtain ⟨g1, g2, g3⟩ := ih ys h1 h2
        refine ⟨by simp; omega, by simp; omega, ?_⟩
        simp only [List.length_cons, List.get?_eq_getElem?, List.getElem?_cons_succ]
        rw [← List.get?_eq_getElem?, ← List.get?_eq_getElem?]
        exact g3
      · rw [if_neg hxy]
        refine ⟨by simp, by simp, ?_⟩
        simp [hxy]

end BitVecWrap

namespace WaveletTrie

theorem insAt_cons_succ {α : Type} (a : α) (l : List α) (i : Nat) (x : α) :
    insAt (a :: l) (i + 1) x = a :: insAt l i x := by
  unfold insAt
  rw [List.take_succ_cons, List.drop_succ_cons]
  rfl

theorem insAt_zero {α : Type} (l : List α) (x : α) : insAt l 0 x = x :: l := rfl

theorem merge_unfold_cons (b : Bool) (pos : List Bool) (cl cr : List (List Bool)) :
    merge (b :: pos) cl cr =
      if b then
        match cr with
        | o :: cr' => (merge pos cl cr').map (fun ms => (true :: o) :: ms)
        | [] => none
      else
        match cl with
        | o :: cl' => (merge pos cl' cr).map (fun ms => (false :: o) :: ms)
        | [] => none := rfl

theorem merge_nil {ms : List (List Bool)} {cl cr : List (List Bool)}
    (h : merge [] cl cr = some ms) : cl = [] ∧ cr = [] ∧ ms = [] := by
  rw [merge.eq_def] at h
  dsimp only at h
  cases cl with
  | nil =>
    cases cr with
    | nil =>
      dsimp only at h
      simp at h
      exact ⟨rfl, rfl, h⟩
    | cons c cr' => dsimp only at h; cases h
  | cons c cl' =>
    cases cr with
    | nil => dsimp only at h; cases h
    | cons d cr' => dsimp only at h; cases h

theorem merge_cons_false {pos : List Bool} {cl cr ms : List (List Bool)}
    (h : merge (false :: pos) cl cr = some ms) :
    ∃ o cl' ms', cl = o :: cl' ∧ ms = (false :: o) :: ms' ∧ merge pos cl' cr = some ms' := by
  rw [merge_unfold_cons, if_neg (by simp)] at h
  cases cl with
  | nil => cases h
  | cons o cl' =>
    have h' : (merge pos cl' cr).map (fun ms => (false :: o) :: ms) = some ms := h
    obtain ⟨ms', hms', hmap⟩ := Option.map_eq_some'.mp h'
    exact ⟨o, cl', ms', rfl, hmap.symm, hms'⟩

theorem merge_cons_true {pos : List Bool} {cl cr ms : List (List Bool)}
    (h : merge (true :: pos) cl cr = some ms) :
    ∃ o cr' ms', cr = o :: cr' ∧ ms = (true :: o) :: ms' ∧ merge pos cl cr' = some ms' := by
  rw [merge_unfold_cons, if_pos rfl] at h
  cases cr with
  | nil => cases h
  | cons o cr' =>
    have h' : (merge pos cl cr').map (fun ms => (true :: o) :: ms) = some ms := h
    obtain ⟨ms', hms', hmap⟩ := Option.map_eq_some'.mp h'
    exact ⟨o, cr', ms', rfl, hmap.symm, hms'⟩

theorem merge_mk_false {pos : List Bool} {cl' cr ms' : List (List Bool)} (o : List Bool)
    (h : merge pos cl' cr = some ms') :
    merge (false :: pos) (o :: cl') cr = some ((false :: o) :: ms') := by
  rw [merge_unfold_cons, if_neg (by simp)]
  show (merge pos cl' cr).map (fun ms => (false :: o) :: ms) = some ((false :: o) :: ms')
  rw [h]
  rfl

theorem merge_mk_true {pos : List Bool} {cl cr' ms' : List (List Bool)} (o : List Bool)
    (h : merge pos cl cr' = some ms') :
    merge (true :: pos) cl (o :: cr') = some ((true :: o) :: ms') := by
  rw [merge_unfold_cons, if_pos rfl]
  show (merge pos cl cr').map (fun ms => (true :: o) :: ms) = some ((true :: o) :: ms')
  rw [h]
  rfl

theorem merge_lengths : ∀ (pos : List Bool) (cl cr ms : List (List Bool)),
    merge pos cl cr = some ms →
    ms.length = pos.length ∧ cl.length = pos.count false ∧ cr.length = pos.count true := by
  intro pos
  induction pos with
  | nil =>
    intro cl cr ms h
    obtain ⟨rfl, rfl, rfl⟩ := merge_nil h
    simp
  | cons b pos ih =>
    intro cl cr ms h
    cases b with
    | false =>
      obtain ⟨o, cl', ms', rfl, rfl, hrec⟩ := merge_cons_false h
      obtain ⟨h1, h2, h3⟩ := ih cl' cr ms' hrec
      refine ⟨by simp [h1], ?_, ?_⟩ <;> rw [List.count_cons] <;> simp [h2, h3]
    | true =>
      obtain ⟨o, cr', ms', rfl, rfl, hrec⟩ := merge_cons_true h
      obtain ⟨h1, h2, h3⟩ := ih cl cr' ms' hrec
      refine ⟨by simp [h1], ?_, ?_⟩ <;> rw [List.count_cons] <;> simp [h2, h3]

theorem merge_exists : ∀ (pos : List Bool) (cl cr : List (List Bool)),
    cl.length = pos.count false → cr.length = pos.count true →
    ∃ ms, merge pos cl cr = some ms := by
  intro pos
  induction pos with
  | nil =>
    intro cl cr h1 h2
    simp at h1 h2
    subst h1; subst h2
    exact ⟨[], by rw [merge.eq_def]⟩
  | cons b pos ih =>
    intro cl cr h1 h2
    cases b with
    | false =>
      rw [List.count_cons] at h1 h2
      simp at h1 h2
      cases cl with
      | nil => simp at h1
      | cons o cl' =>
        simp at h1
        obtain ⟨ms', hms'⟩ := ih cl' cr (by omega) (by omega)
        exact ⟨(false :: o) :: ms', merge_mk_false o hms'⟩
    | true =>
      rw [List.count_cons] at h1 h2
      simp at h1 h2
      cases cr with
      | nil => simp at h2
      | cons o cr' =>
        simp at h2
        obtain ⟨ms', hms'⟩ := ih cl cr' (by omega) (by omega)
        exact ⟨(true :: o) :: ms', merge_mk_true o hms'⟩

theorem merge_take : ∀ (pos : List Bool) (k : Nat) (cl cr ms : List (List Bool)),
    merge pos cl cr = some ms → k ≤ pos.length →
    merge (pos.take k) (cl.take ((pos.take k).count false)) (cr.take ((pos.take k).count true)) =
      some (ms.take k) := by
  intro pos
  induction pos with
  | nil =>
    intro k cl cr ms h hk
    obtain ⟨rfl, rfl, rfl⟩ := merge_nil h
    simp at hk
    subst hk
    simpa using h
  | cons b pos ih =>
    intro k cl cr ms h hk
    cases k with
    | zero =>
      simp
      rw [merge]
    | succ k =>
      cases b with
      | false =>
        obtain ⟨o, cl', ms', rfl, rfl, hrec⟩ := merge_cons_false h
        rw [List.take_succ_cons]
        have hc1 : (false :: pos.take k).count false = (pos.take k).count false + 1 := by
          rw [List.count_cons]; simp
        have hc2 : (false :: pos.take k).count true = (pos.take k).count true := by
          rw [List.count_cons]; simp
        rw [hc1, hc2, List.take_succ_cons]
        exact merge_mk_false o (ih k cl' cr ms' hrec (by simpa using hk))
      | true =>
        obtain ⟨o, cr', ms', rfl, rfl, hrec⟩ := merge_cons_true h
        rw [List.take_succ_cons]
        have hc1 : (true :: pos.take k).count false = (pos.take k).count false := by
          rw [List.count_cons]; simp
        have hc2 : (true :: pos.take k).count true = (pos.take k).count true + 1 := by
          rw [List.count_cons]; simp
        rw [hc1, hc2, List.take_succ_cons]
        exact merge_mk_true o (ih k cl cr' ms' hrec (by simpa using hk))

end WaveletTrie

namespace WaveletTrie

theorem merge_countP_true : ∀ (pos : List Bool) (cl cr ms : List (List Bool)),
    merge pos cl cr = some ms → ∀ (s : List Bool),
    ms.countP (fun o => decide ((true :: s) <+: o)) = cr.countP (fun o => decide (s <+: o)) := by
  intro pos
  induction pos with
  | nil =>
    intro cl cr ms h s
    obtain ⟨rfl, rfl, rfl⟩ := merge_nil h
    rfl
  | cons b pos ih =>
    intro cl cr ms h s
    cases b with
    | false =>
      obtain ⟨o, cl', ms', rfl, rfl, hrec⟩ := merge_cons_false h
      rw [List.countP_cons, ih cl' cr ms' hrec s]
      simp [List.cons_prefix_cons]
    | true =>
      obtain ⟨o, cr', ms', rfl, rfl, hrec⟩ := merge_cons_true h
      rw [List.countP_cons, List.countP_cons, ih cl cr' ms' hrec s]
      simp [List.cons_prefix_cons]

theorem merge_countP_false : ∀ (pos : List Bool) (cl cr ms : List (List Bool)),
    merge pos cl cr = some ms → ∀ (s : List Bool),
    ms.countP (fun o => decide ((false :: s) <+: o)) = cl.countP (fun o => decide (s <+: o)) := by
  intro pos
  induction pos with
  | nil =>
    intro cl cr ms h s
    obtain ⟨rfl, rfl, rfl⟩ := merge_nil h
    rfl
  | cons b pos ih =>
    intro cl cr ms h s
    cases b with
    | false =>
      obtain ⟨o, cl', ms', rfl, rfl, hrec⟩ := merge_cons_false h
      rw [List.countP_cons, List.countP_cons, ih cl' cr ms' hrec s]
      simp [List.cons_prefix_cons]
    | true =>
      obtain ⟨o, cr', ms', rfl, rfl, hrec⟩ := merge_cons_true h
      rw [List.countP_cons, ih cl cr' ms' hrec s]
      simp [List.cons_prefix_cons]

theorem merge_mem : ∀ (pos : List Bool) (cl cr ms : List (List Bool)),
    merge pos cl cr = some ms → ∀ o ∈ ms,
    (∃ o', o = false :: o' ∧ o' ∈ cl) ∨ (∃ o', o = true :: o' ∧ o' ∈ cr) := by
  intro pos
  induction pos with
  | nil =>
    intro cl cr ms h o ho
    obtain ⟨rfl, rfl, rfl⟩ := merge_nil h
    cases ho
  | cons b pos ih =>
    intro cl cr ms h o ho
    cases b with
    | false =>
      obtain ⟨o1, cl', ms', rfl, rfl, hrec⟩ := merge_cons_false h
      rcases List.mem_cons.mp ho with rfl | hmem
      · exact Or.inl ⟨o1, rfl, List.mem_cons_self ..⟩
      · rcases ih cl' cr ms' hrec o hmem with ⟨o', rfl, ho'⟩ | ⟨o', rfl, ho'⟩
        · exact Or.inl ⟨o', rfl, List.mem_cons_of_mem _ ho'⟩
        · exact Or.inr ⟨o', rfl, ho'⟩
    | true =>
      obtain ⟨o1, cr', ms', rfl, rfl, hrec⟩ := merge_cons_true h
      rcases List.mem_cons.mp ho with rfl | hmem
      · exact Or.inr ⟨o1, rfl, List.mem_cons_self ..⟩
      · rcases ih cl cr' ms' hrec o hmem with ⟨o', rfl, ho'⟩ | ⟨o', rfl, ho'⟩
        · exact Or.inl ⟨o', rfl, ho'⟩
        · exact Or.inr ⟨o', rfl, List.mem_cons_of_mem _ ho'⟩

theorem merge_mem_right : ∀ (pos : List Bool) (cl cr ms : List (List Bool)),
    merge pos cl cr = some ms → ∀ o' ∈ cr, (true :: o') ∈ ms := by
  intro pos
  induction pos with
  | nil =>
    intro cl cr ms h o' ho'
    obtain ⟨rfl, rfl, rfl⟩ := merge_nil h
    cases ho'
  | cons b pos ih =>
    intro cl cr ms h o' ho'
    cases b with
    | false =>
      obtain ⟨o1, cl', ms', rfl, rfl, hrec⟩ := merge_cons_false h
      exact List.mem_cons_of_mem _ (ih cl' cr ms' hrec o' ho')
    | true =>
      obtain ⟨o1, cr', ms', rfl, rfl, hrec⟩ := merge_cons_true h
      rcases List.mem_cons.mp ho' with rfl | hmem
      · exact List.mem_cons_self ..
      · exact List.mem_cons_of_mem _ (ih cl cr' ms' hrec o' hmem)

theorem merge_mem_left : ∀ (pos : List Bool) (cl cr ms : List (List Bool)),
    merge pos cl cr = some ms → ∀ o' ∈ cl, (false :: o') ∈ ms := by
  intro pos
  induction pos with
  | nil =>
    intro cl cr ms h o' ho'
    obtain ⟨rfl, rfl, rfl⟩ := merge_nil h
    cases ho'
  | cons b pos ih =>
    intro cl cr ms h o' ho'
    cases b with
    | false =>
      obtain ⟨o1, cl', ms', rfl, rfl, hrec⟩ := merge_cons_false h
      rcases List.mem_cons.mp ho' with rfl | hmem
      · exact List.mem_cons_self ..
      · exact List.mem_cons_of_mem _ (ih cl' cr ms' hrec o' hmem)
    | true =>
      obtain ⟨o1, cr', ms', rfl, rfl, hrec⟩ := merge_cons_true h
      exact List.mem_cons_of_mem _ (ih cl cr' ms' hrec o' ho')

theorem merge_insAt_true : ∀ (i : Nat) (pos : List Bool) (cl cr ms : List (List Bool)) (o : List Bool),
    merge pos cl cr = some ms → i ≤ pos.length →
    merge (insAt pos i true) cl (insAt cr ((pos.take i).count true) o) =
      some (insAt ms i (true :: o)) := by
  intro i
  induction i with
  | zero =>
    intro pos cl cr ms o h _
    rw [insAt_zero, insAt_zero]
    rw [show (pos.take 0).count true = 0 from rfl, insAt_zero]
    exact merge_mk_true o h
  | succ i ih =>
    intro pos cl cr ms o h hk
    cases pos with
    | nil => simp at hk
    | cons b pos' =>
      rw [insAt_cons_succ, List.take_succ_cons, List.count_cons]
      cases b with
      | false =>
        obtain ⟨o1, cl', ms', rfl, rfl, hrec⟩ := merge_cons_false h
        rw [insAt_cons_succ]
        have hcnt : (pos'.take i).count true + (if (false == true) = true then 1 else 0) =
            (pos'.take i).count true := by simp
        rw [hcnt]
        exact merge_mk_false o1 (ih pos' cl' cr ms' o hrec (by simpa using hk))
      | true =>
        obtain ⟨o1, cr', ms', rfl, rfl, hrec⟩ := merge_cons_true h
        rw [insAt_cons_succ]
        have hcnt : (pos'.take i).count true + (if (true == true) = true then 1 else 0) =
            (pos'.take i).count true + 1 := by simp
        rw [hcnt, insAt_cons_succ]
        exact merge_mk_true o1 (ih pos' cl cr' ms' o hrec (by simpa using hk))

theorem merge_insAt_false : ∀ (i : Nat) (pos : List Bool) (cl cr ms : List (List Bool)) (o : List Bool),
    merge pos cl cr = some ms → i ≤ pos.length →
    merge (insAt pos i false) (insAt cl ((pos.take i).count false) o) cr =
      some (insAt ms i (false :: o)) := by
  intro i
  induction i with
  | zero =>
    intro pos cl cr ms o h _
    rw [insAt_zero, insAt_zero]
    rw [show (pos.take 0).count false = 0 from rfl, insAt_zero]
    exact merge_mk_false o h
  | succ i ih =>
    intro pos cl cr ms o h hk
    cases pos with
    | nil => simp at hk
    | cons b pos' =>
      rw [insAt_cons_succ, List.take_succ_cons, List.count_cons]
      cases b with
      | true =>
        obtain ⟨o1, cr', ms', rfl, rfl, hrec⟩ := merge_cons_true h
        rw [insAt_cons_succ]
        have hcnt : (pos'.take i).count false + (if (true == false) = true then 1 else 0) =
            (pos'.take i).count false := by simp
        rw [hcnt]
        exact merge_mk_true o1 (ih pos' cl cr' ms' o hrec (by simpa using hk))
      | false =>
        obtain ⟨o1, cl', ms', rfl, rfl, hrec⟩ := merge_cons_false h
        rw [insAt_cons_succ]
        have hcnt : (pos'.take i).count false + (if (false == false) = true then 1 else 0) =
            (pos'.take i).count false + 1 := by simp
        rw [hcnt, insAt_cons_succ]
        exact merge_mk_false o1 (ih pos' cl' cr ms' o hrec (by simpa using hk))

theorem merge_replicate_false : ∀ (OC : List (List Bool)),
    merge (List.replicate OC.length false) OC [] = some (OC.map (fun o => false :: o)) := by
  intro OC
  induction OC with
  | nil =>
    rw [List.length_nil, List.replicate_zero, merge.eq_def]
    rfl
  | cons o OC' ih =>
    rw [List.length_cons, List.replicate_succ, List.map_cons]
    exact merge_mk_false o ih

theorem merge_replicate_true : ∀ (OC : List (List Bool)),
    merge (List.replicate OC.length true) [] OC = some (OC.map (fun o => true :: o)) := by
  intro OC
  induction OC with
  | nil =>
    rw [List.length_nil, List.replicate_zero, merge.eq_def]
    rfl
  | cons o OC' ih =>
    rw [List.length_cons, List.replicate_succ, List.map_cons]
    exact merge_mk_true o ih

theorem merge_split_false : ∀ (i : Nat) (OC : List (List Bool)) (x : List Bool),
    i ≤ OC.length →
    merge (insAt (List.replicate OC.length false) i true) OC [x] =
      some (insAt (OC.map (fun o => false :: o)) i (true :: x)) := by
  intro i
  induction i with
  | zero =>
    intro OC x _
    rw [insAt_zero, insAt_zero]
    exact merge_mk_true x (merge_replicate_false OC)
  | succ i ih =>
    intro OC x hk
    cases OC with
    | nil => simp at hk
    | cons o OC' =>
      rw [List.length_cons, List.replicate_succ, insAt_cons_succ, List.map_cons, insAt_cons_succ]
      exact merge_mk_false o (ih OC' x (by simpa using hk))

theorem merge_split_true : ∀ (i : Nat) (OC : List (List Bool)) (x : List Bool),
    i ≤ OC.length →
    merge (insAt (List.replicate OC.length true) i false) [x] OC =
      some (insAt (OC.map (fun o => true :: o)) i (false :: x)) := by
  intro i
  induction i with
  | zero =>
    intro OC x _
    rw [insAt_zero, insAt_zero]
    exact merge_mk_false x (merge_replicate_true OC)
  | succ i ih =>
    intro OC x hk
    cases OC with
    | nil => simp at hk
    | cons o OC' =>
      rw [List.length_cons, List.replicate_succ, insAt_cons_succ, List.map_cons, insAt_cons_succ]
      exact merge_mk_true o (ih OC' x (by simpa using hk))

end WaveletTrie

namespace WaveletTrie

theorem merge_count_true : ∀ (pos : List Bool) (cl cr ms : List (List Bool)),
    merge pos cl cr = some ms → ∀ (s : List Bool),
    ms.count (true :: s) = cr.count s := by
  intro pos
  induction pos with
  | nil =>
    intro cl cr ms h s
    obtain ⟨rfl, rfl, rfl⟩ := merge_nil h
    rfl
  | cons b pos ih =>
    intro cl cr ms h s
    cases b with
    | false =>
      obtain ⟨o, cl', ms', rfl, rfl, hrec⟩ := merge_cons_false h
      rw [List.count_cons, ih cl' cr ms' hrec s]
      simp
    | true =>
      obtain ⟨o, cr', ms', rfl, rfl, hrec⟩ := merge_cons_true h
      rw [List.count_cons, List.count_cons, ih cl cr' ms' hrec s]
      simp

theorem merge_count_false : ∀ (pos : List Bool) (cl cr ms : List (List Bool)),
    merge pos cl cr = some ms → ∀ (s : List Bool),
    ms.count (false :: s) = cl.count s := by
  intro pos
  induction pos with
  | nil =>
    intro cl cr ms h s
    obtain ⟨rfl, rfl, rfl⟩ := merge_nil h
    rfl
  | cons b pos ih =>
    intro cl cr ms h s
    cases b with
    | false =>
      obtain ⟨o, cl', ms', rfl, rfl, hrec⟩ := merge_cons_false h
      rw [List.count_cons, List.count_cons, ih cl' cr ms' hrec s]
      simp
    | true =>
      obtain ⟨o, cr', ms', rfl, rfl, hrec⟩ := merge_cons_true h
      rw [List.count_cons, ih cl cr' ms' hrec s]
      simp

theorem contents_repfx (pfx pos : BitVecWrap) (l r : Option WaveletTrie)
    (cs : List (List Bool)) (h : contents (node pfx pos l r) = some cs) :
    ∃ X : List (List Bool), cs = X.map (fun o => pfx ++ o) ∧
      ∀ q, contents (node q pos l r) = some (X.map (fun o => q ++ o)) := by
cases l with
  | none =>
    cases r with
    | none =>
      refine ⟨List.replicate pos.length [], ?_, ?_⟩
      · rw [contents] at h
        rw [← Option.some_inj.mp h, List.map_replicate, List.append_nil]
      · intro q
        rw [contents, List.map_replicate, List.append_nil]
    | some rt =>
      rw [contents] at h
      · cases h
      · intro a b heq; simp at heq
      · intro a b c d heq; simp at heq
  | some lt =>
    cases r with
    | none =>
      rw [contents] at h
      · cases h
      · intro a b heq; simp at heq
      · intro a b c d heq; simp at heq
    | some rt =>
      rw [contents] at h
      cases hcl : contents lt with
      | none => rw [hcl] at h; dsimp only at h; cases h
      | some cl =>
        cases hcr : contents rt with
        | none => rw [hcl, hcr] at h; dsimp only at h; cases h
        | some cr =>
          rw [hcl, hcr] at h
          dsimp only at h
          cases hm : merge pos cl cr with
          | none => rw [hm] at h; dsimp only at h; cases h
          | some ms =>
            rw [hm] at h
            dsimp only at h
            refine ⟨ms, (Option.some_inj.mp h).symm, ?_⟩
            intro q
            rw [contents, hcl, hcr]
            dsimp only
            rw [hm]

theorem contents_length (pfx pos : BitVecWrap) (l r : Option WaveletTrie)
    (cs : List (List Bool)) (h : contents (node pfx pos l r) = some cs) :
    cs.length = pos.length := by
cases l with
  | none =>
    cases r with
    | none =>
      rw [contents] at h
      rw [← Option.some_inj.mp h, List.length_replicate]
    | some rt =>
      rw [contents] at h
      · cases h
      · intro a b heq; simp at heq
      · intro a b c d heq; simp at heq
  | some lt =>
    cases r with
    | none =>
      rw [contents] at h
      · cases h
      · intro a b heq; simp at heq
      · intro a b c d heq; simp at heq
    | some rt =>
      rw [contents] at h
      cases hcl : contents lt with
      | none => rw [hcl] at h; dsimp only at h; cases h
      | some cl =>
        cases hcr : contents rt with
        | none => rw [hcl, hcr] at h; dsimp only at h; cases h
        | some cr =>
          rw [hcl, hcr] at h
          dsimp only at h
          cases hm : merge pos cl cr with
          | none => rw [hm] at h; dsimp only at h; cases h
          | some ms =>
            rw [hm] at h
            dsimp only at h
            rw [← Option.some_inj.mp h, List.length_map]
            exact (merge_lengths pos cl cr ms hm).1

theorem goodT_repfx (pfx q pos : BitVecWrap) (l r : Option WaveletTrie)
    (h : GoodT (node pfx pos l r)) (hpos : pos ≠ []) : GoodT (node q pos l r) := by
cases l with
  | none =>
    cases r with
    | none =>
      rw [GoodT]
      intro hp
      exact absurd hp hpos
    | some rt =>
      rw [GoodT] at h
      · cases h
      · intro a b heq; simp at heq
      · intro a b c d heq; simp at heq
  | some lt =>
    cases r with
    | none =>
      rw [GoodT] at h
      · cases h
      · intro a b heq; simp at heq
      · intro a b c d heq; simp at heq
    | some rt =>
      rw [GoodT] at h ⊢
      exact h

end WaveletTrie

namespace WaveletTrie

theorem count_map_app (pfx : List Bool) : ∀ (l : List (List Bool)) (x : List Bool),
    (l.map (fun o => pfx ++ o)).count (pfx ++ x) = l.count x := by
  intro l x
  induction l with
  | nil => rfl
  | cons o l ih =>
    rw [List.map_cons, List.count_cons, List.count_cons, ih]
    by_cases h : o = x
    · subst h; simp
    · have h2 : ¬ (pfx ++ o = pfx ++ x) := fun hc => h (List.append_cancel_left hc)
      simp [h, h2]

theorem rank_spec : ∀ (n : Nat) (t : WaveletTrie), sizeOf t ≤ n →
    ∀ (s : List Bool) (i : Nat) (cs : List (List Bool)),
    GoodT t → contents t = some cs → s ∈ cs →
    (∀ o ∈ cs, s <+: o → o = s) → i ≤ cs.length →
    rank t s i = some ((cs.take i).count s) := by
  intro n
  induction n with
  | zero =>
    intro t ht
    exfalso
    cases t with
    | node a b c d => simp at ht
  | succ n ih =>
    intro t ht s i cs hg hc hmem hpf hi
    cases t with
    | node pfx positions left right =>
      cases left with
      | none =>
        cases right with
        | some rt =>
          rw [GoodT] at hg
          · cases hg
          · intro a b heq; simp at heq
          · intro a b c d heq; simp at heq
        | none =>
          rw [contents] at hc
          have hcs : cs = List.replicate positions.length pfx := (Option.some_inj.mp hc).symm
          subst hcs
          obtain ⟨hn0, hs⟩ := List.mem_replicate.mp hmem
          rw [rank, if_pos (Or.inr hs)]
          rw [List.length_replicate] at hi
          rw [List.take_replicate, show min i positions.length = i by omega, hs,
            List.count_replicate_self]
      | some lt =>
        cases right with
        | none =>
          rw [GoodT] at hg
          · cases hg
          · intro a b heq; simp at heq
          · intro a b c d heq; simp at heq
        | some rt =>
          rw [GoodT] at hg
          obtain ⟨hpos, hglt, hgrt, ⟨cl, hcl, hcll⟩, ⟨cr, hcr, hcrl⟩⟩ := hg
          rw [contents, hcl, hcr] at hc
          dsimp only at hc
          cases hm : merge positions cl cr with
          | none => rw [hm] at hc; dsimp only at hc; cases hc
          | some ms =>
            rw [hm] at hc
            dsimp only at hc
            have hcs : cs = ms.map (fun o => pfx ++ o) := (Option.some_inj.mp hc).symm
            subst hcs
            obtain ⟨hmsl, -, -⟩ := merge_lengths positions cl cr ms hm
            have hil : i ≤ positions.length := by
              rw [List.length_map, hmsl] at hi; exact hi
            obtain ⟨m, hmms, hsm⟩ := List.mem_map.mp hmem
            rcases merge_mem positions cl cr ms hm m hmms with ⟨m', hm', hmcl⟩ | ⟨m', hm', hmcr⟩
            · -- routed left: s = pfx ++ false :: m'
              subst hm'
              have hs : s = pfx ++ false :: m' := hsm.symm
              have hslen : s.length = pfx.length + (m'.length + 1) := by
                rw [hs]; simp
              have hs1 : s ≠ [] := by
                rw [hs]; simp
              have hs2 : s ≠ pfx := by
                intro heq
                rw [heq] at hslen
                omega
              rw [rank, if_neg (not_or.mpr ⟨hs1, hs2⟩), if_neg (by omega)]
              rw [if_pos ((BitVecWrap.is_prefix_of_iff pfx s).mpr ⟨false :: m', hs.symm⟩)]
              have hds : BitVecWrap.different_suffix s pfx.length = some (false, m') := by
                apply BitVecWrap.different_suffix_eq_some.mpr
                constructor
                · rw [hs, List.get?_append_right (Nat.le_refl _), Nat.sub_self]
                  rfl
                · rw [hs, List.drop_append]
                  rfl
              rw [hds]
              dsimp only
              rw [BitVecWrap.rank_zero_eval hil]
              dsimp only
              have hlen_take : (positions.take i).length = i := by
                rw [List.length_take]; omega
              have hcount : i - (positions.take i).count true = (positions.take i).count false := by
                have := BitVecWrap.count_false_add_count_true (positions.take i)
                omega
              rw [hcount]
              have hszlt : sizeOf lt ≤ n := by
                simp at ht; omega
              have hk : (positions.take i).count false ≤ cl.length := by
                rw [hcll]
                exact List.Sublist.count_le (List.take_sublist i positions) false
              rw [ih lt hszlt m' ((positions.take i).count false) cl hglt hcl hmcl ?hpf hk]
              case hpf =>
                intro o ho hpo
                have hmem2 : pfx ++ false :: o ∈ ms.map (fun o => pfx ++ o) :=
                  List.mem_map.mpr ⟨false :: o, merge_mem_left positions cl cr ms hm o ho, rfl⟩
                have hpre : s <+: pfx ++ false :: o := by
                  rw [hs]
                  exact (List.prefix_append_right_inj pfx).mpr
                    ((List.prefix_cons_inj false).mpr hpo)
                have := hpf _ hmem2 hpre
                rw [hs] at this
                have := List.append_cancel_left this
                exact (List.cons.injEq .. |>.mp this).2
              congr 1
              rw [← List.map_take]
              rw [hs, count_map_app pfx]
              exact (merge_count_false _ _ _ _
                (merge_take positions i cl cr ms hm hil) m').symm
            · -- routed right: s = pfx ++ true :: m'
              subst hm'
              have hs : s = pfx ++ true :: m' := hsm.symm
              have hslen : s.length = pfx.length + (m'.length + 1) := by
                rw [hs]; simp
              have hs1 : s ≠ [] := by
                rw [hs]; simp
              have hs2 : s ≠ pfx := by
                intro heq
                rw [heq] at hslen
                omega
              rw [rank, if_neg (not_or.mpr ⟨hs1, hs2⟩), if_neg (by omega)]
              rw [if_pos ((BitVecWrap.is_prefix_of_iff pfx s).mpr ⟨true :: m', hs.symm⟩)]
              have hds : BitVecWrap.different_suffix s pfx.length = some (true, m') := by
                apply BitVecWrap.different_suffix_eq_some.mpr
                constructor
                · rw [hs, List.get?_append_right (Nat.le_refl _), Nat.sub_self]
                  rfl
                · rw [hs, List.drop_append]
                  rfl
              rw [hds]
              dsimp only
              rw [BitVecWrap.rank_one_eq hil]
              dsimp only
              have hszlt : sizeOf rt ≤ n := by
                simp at ht; omega
              have hk : (positions.take i).count true ≤ cr.length := by
                rw [hcrl]
                exact List.Sublist.count_le (List.take_sublist i positions) true
              rw [ih rt hszlt m' ((positions.take i).count true) cr hgrt hcr hmcr ?hpf2 hk]
              case hpf2 =>
                intro o ho hpo
                have hmem2 : pfx ++ true :: o ∈ ms.map (fun o => pfx ++ o) :=
                  List.mem_map.mpr ⟨true :: o, merge_mem_right positions cl cr ms hm o ho, rfl⟩
                have hpre : s <+: pfx ++ true :: o := by
                  rw [hs]
                  exact (List.prefix_append_right_inj pfx).mpr
                    ((List.prefix_cons_inj true).mpr hpo)
                have := hpf _ hmem2 hpre
                rw [hs] at this
                have := List.append_cancel_left this
                exact (List.cons.injEq .. |>.mp this).2
              congr 1
              rw [← List.map_take]
              rw [hs, count_map_app pfx]
              exact (merge_count_true _ _ _ _
                (merge_take positions i cl cr ms hm hil) m').symm

end WaveletTrie

namespace WaveletTrie

theorem insert_to_child_spec (n : Nat)
    (ih : ∀ (t : WaveletTrie), sizeOf t ≤ n →
      ∀ (s : List Bool) (i : Nat) (cs : List (List Bool)),
      GoodT t → contents t = some cs → i ≤ cs.length →
      (∀ o ∈ cs, (s <+: o → o = s) ∧ (o <+: s → o = s)) →
      ∃ t', insert t s i = some (t', Except.ok ()) ∧ GoodT t' ∧
        contents t' = some (insAt cs i s)) :
    ∀ (pfx positions : BitVecWrap) (lt rt : WaveletTrie) (s : List Bool) (i : Nat)
      (cs : List (List Bool)),
    sizeOf lt ≤ n → sizeOf rt ≤ n →
    GoodT (node pfx positions (some lt) (some rt)) →
    contents (node pfx positions (some lt) (some rt)) = some cs →
    i ≤ cs.length →
    (∀ o ∈ cs, (s <+: o → o = s) ∧ (o <+: s → o = s)) →
    pfx <+: s → pfx.length < s.length →
    ∃ t', insert_to_child pfx positions (some lt) (some rt) s i = some (t', Except.ok ()) ∧
      GoodT t' ∧ contents t' = some (insAt cs i s) := by
  intro pfx positions lt rt s i cs hszl hszr hg hc hi h4 hps hlen
  rw [GoodT] at hg
  obtain ⟨hpos, hglt, hgrt, ⟨cl, hcl, hcll⟩, ⟨cr, hcr, hcrl⟩⟩ := hg
  rw [contents, hcl, hcr] at hc
  dsimp only at hc
  cases hm : merge positions cl cr with
  | none => rw [hm] at hc; dsimp only at hc; cases hc
  | some ms =>
    rw [hm] at hc
    dsimp only at hc
    have hcs : cs = ms.map (fun o => pfx ++ o) := (Option.some_inj.mp hc).symm
    subst hcs
    obtain ⟨hmsl, -, -⟩ := merge_lengths positions cl cr ms hm
    have hil : i ≤ positions.length := by
      rw [List.length_map, hmsl] at hi; exact hi
    obtain ⟨b, hbget, hdecomp⟩ := prefix_decomp hps hlen
    have hds : BitVecWrap.different_suffix s pfx.length =
        some (b, s.drop (pfx.length + 1)) :=
      BitVecWrap.different_suffix_eq_some.mpr ⟨hbget, rfl⟩
    have hins : BitVecWrap.insert? positions i b = some (insAt positions i b) :=
      BitVecWrap.insert?_eq b hil
    have hps_len : (insAt positions i b).length = positions.length + 1 :=
      insAt_length positions i b hil
    have hps_ne : insAt positions i b ≠ [] := by
      intro heq
      rw [heq] at hps_len
      simp at hps_len
    cases b with
    | true =>
      have hrk : BitVecWrap.rank_one (insAt positions i true) i =
          some ((positions.take i).count true) := by
        have h1 := @BitVecWrap.rank_one_eq (insAt positions i true) i
          (by rw [hps_len]; omega)
        rw [insAt_take_le positions i true hil] at h1
        exact h1
      have hk : (positions.take i).count true ≤ cr.length := by
        rw [hcrl]
        exact List.Sublist.count_le (List.take_sublist i positions) true
      have h4' : ∀ o ∈ cr, (s.drop (pfx.length + 1) <+: o → o = s.drop (pfx.length + 1)) ∧
          (o <+: s.drop (pfx.length + 1) → o = s.drop (pfx.length + 1)) := by
        intro o ho
        have hmem2 : pfx ++ true :: o ∈ ms.map (fun o => pfx ++ o) :=
          List.mem_map.mpr ⟨true :: o, merge_mem_right positions cl cr ms hm o ho, rfl⟩
        constructor
        · intro hpo
          have hpre : s <+: pfx ++ true :: o := by
            rw [hdecomp]
            exact (List.prefix_append_right_inj pfx).mpr
              ((List.prefix_cons_inj true).mpr hpo)
          have := (h4 _ hmem2).1 hpre
          rw [hdecomp] at this
          have := List.append_cancel_left this
          exact (List.cons.injEq .. |>.mp this).2
        · intro hpo
          have hpre : pfx ++ true :: o <+: s := by
            rw [hdecomp]
            exact (List.prefix_append_right_inj pfx).mpr
              ((List.prefix_cons_inj true).mpr hpo)
          have := (h4 _ hmem2).2 hpre
          rw [hdecomp] at this
          have := List.append_cancel_left this
          exact (List.cons.injEq .. |>.mp this).2
      obtain ⟨rt', hret, hgrt', hcrt'⟩ :=
        ih rt hszr (s.drop (pfx.length + 1)) ((positions.take i).count true) cr hgrt hcr hk h4'
      refine ⟨node pfx (insAt positions i true) (some lt) (some rt'), ?_, ?_, ?_⟩
      · rw [insert_to_child, hds]
        dsimp only
        rw [hins]
        dsimp only
        rw [hrk]
        dsimp only
        rw [hret]
      · rw [GoodT]
        refine ⟨hps_ne, hglt, hgrt', ⟨cl, hcl, ?_⟩,
          ⟨insAt cr ((positions.take i).count true) (s.drop (pfx.length + 1)), hcrt', ?_⟩⟩
        · rw [insAt_count positions i true false hil]
          simp [hcll]
        · rw [insAt_length cr _ _ hk, insAt_count positions i true true hil]
          simp [hcrl]
      · rw [contents, hcl, hcrt']
        dsimp only
        rw [merge_insAt_true i positions cl cr ms (s.drop (pfx.length + 1)) hm hil]
        dsimp only
        rw [map_insAt, ← hdecomp]
    | false =>
      have hrk : BitVecWrap.rank_zero (insAt positions i false) i =
          some ((positions.take i).count false) := by
        have h1 := @BitVecWrap.rank_zero_eval (insAt positions i false) i
          (by rw [hps_len]; omega)
        rw [insAt_take_le positions i false hil] at h1
        have hlen_take : (positions.take i).length = i := by
          rw [List.length_take]; omega
        have hcnt := BitVecWrap.count_false_add_count_true (positions.take i)
        rw [show i - (positions.take i).count true = (positions.take i).count false by omega] at h1
        exact h1
      have hk : (positions.take i).count false ≤ cl.length := by
        rw [hcll]
        exact List.Sublist.count_le (List.take_sublist i positions) false
      have h4' : ∀ o ∈ cl, (s.drop (pfx.length + 1) <+: o → o = s.drop (pfx.length + 1)) ∧
          (o <+: s.drop (pfx.length + 1) → o = s.drop (pfx.length + 1)) := by
        intro o ho
        have hmem2 : pfx ++ false :: o ∈ ms.map (fun o => pfx ++ o) :=
          List.mem_map.mpr ⟨false :: o, merge_mem_left positions cl cr ms hm o ho, rfl⟩
        constructor
        · intro hpo
          have hpre : s <+: pfx ++ false :: o := by
            rw [hdecomp]
            exact (List.prefix_append_right_inj pfx).mpr
              ((List.prefix_cons_inj false).mpr hpo)
          have := (h4 _ hmem2).1 hpre
          rw [hdecomp] at this
          have := List.append_cancel_left this
          exact (List.cons.injEq .. |>.mp this).2
        · intro hpo
          have hpre : pfx ++ false :: o <+: s := by
            rw [hdecomp]
            exact (List.prefix_append_right_inj pfx).mpr
              ((List.prefix_cons_inj false).mpr hpo)
          have := (h4 _ hmem2).2 hpre
          rw [hdecomp] at this
          have := List.append_cancel_left this
          exact (List.cons.injEq .. |>.mp this).2
      obtain ⟨lt', hret, hglt', hclt'⟩ :=
        ih lt hszl (s.drop (pfx.length + 1)) ((positions.take i).count false) cl hglt hcl hk h4'
      refine ⟨node pfx (insAt positions i false) (some lt') (some rt), ?_, ?_, ?_⟩
      · rw [insert_to_child, hds]
        dsimp only
        rw [hins]
        dsimp only
        rw [hrk]
        dsimp only
        rw [hret]
      · rw [GoodT]
        refine ⟨hps_ne, hglt', hgrt,
          ⟨insAt cl ((positions.take i).count false) (s.drop (pfx.length + 1)), hclt', ?_⟩,
          ⟨cr, hcr, ?_⟩⟩
        · rw [insAt_length cl _ _ hk, insAt_count positions i false false hil]
          simp [hcll]
        · rw [insAt_count positions i false true hil]
          simp [hcrl]
      · rw [contents, hclt', hcr]
        dsimp only
        rw [merge_insAt_false i positions cl cr ms (s.drop (pfx.length + 1)) hm hil]
        dsimp only
        rw [map_insAt, ← hdecomp]

end WaveletTrie

namespace WaveletTrie

theorem insert_split_spec : ∀ (pfx positions : BitVecWrap) (l r : Option WaveletTrie)
    (s : List Bool) (i : Nat) (cs : List (List Bool)),
    GoodT (node pfx positions l r) → contents (node pfx positions l r) = some cs →
    i ≤ cs.length → positions ≠ [] → ¬(s <+: pfx) → ¬(pfx <+: s) →
    ∃ t', insert (node pfx positions l r) s i = some (t', Except.ok ()) ∧
      GoodT t' ∧ contents t' = some (insAt cs i s) := by
  intro pfx positions l r s i cs hg hc hi hpos hnsp hnps
  have hpfx_ne : pfx ≠ [] := by
    intro h
    rw [h] at hnps
    exact hnps (List.nil_prefix)
  have hs_ne : s ≠ [] := by
    intro h
    rw [h] at hnsp
    exact hnsp (List.nil_prefix)
  have hs_ne_pfx : s ≠ pfx := by
    intro h
    rw [h] at hnsp
    exact hnsp (List.prefix_refl pfx)
  have hn := contents_length pfx positions l r cs hc
  have hil : i ≤ positions.length := by omega
  have hlcp : BitVecWrap.lcp s pfx = BitVecWrap.lcpLoop s pfx := by
    rw [BitVecWrap.lcp, if_neg hs_ne_pfx]
  obtain ⟨hls, hlp, hget_ne⟩ := BitVecWrap.lcpLoop_spec s pfx hnsp hnps
  have hLs : BitVecWrap.lcpLoop s pfx <+: s := BitVecWrap.lcpLoop_prefix_left s pfx
  have hLp : BitVecWrap.lcpLoop s pfx <+: pfx := BitVecWrap.lcpLoop_prefix_right s pfx
  obtain ⟨bs, hbs_get, hpfx_decomp⟩ := prefix_decomp hLp hlp
  obtain ⟨bq, hbq_get, hs_decomp⟩ := prefix_decomp hLs hls
  have hbsq : bq ≠ bs := by
    intro h
    apply hget_ne
    rw [hbq_get, hbs_get, h]
  have hds_pfx : BitVecWrap.different_suffix pfx (BitVecWrap.lcpLoop s pfx).length =
      some (bs, pfx.drop ((BitVecWrap.lcpLoop s pfx).length + 1)) :=
    BitVecWrap.different_suffix_eq_some.mpr ⟨hbs_get, rfl⟩
  have hds_s : BitVecWrap.different_suffix s (BitVecWrap.lcpLoop s pfx).length =
      some (bq, s.drop ((BitVecWrap.lcpLoop s pfx).length + 1)) :=
    BitVecWrap.different_suffix_eq_some.mpr ⟨hbq_get, rfl⟩
  obtain ⟨X, hcsX, hall⟩ := contents_repfx pfx positions l r cs hc
  have hXlen : X.length = positions.length := by
    rw [hcsX, List.length_map] at hn
    exact hn
  have hgo : GoodT (node (pfx.drop ((BitVecWrap.lcpLoop s pfx).length + 1)) positions l r) :=
    goodT_repfx pfx _ positions l r hg hpos
  have hgleaf : GoodT (node (s.drop ((BitVecWrap.lcpLoop s pfx).length + 1))
      (BitVecWrap.from_elem 1 false) none none) := by
    rw [GoodT]
    intro h
    simp [BitVecWrap.from_elem] at h
  have hipo1 : ¬ (BitVecWrap.is_prefix_of s pfx = true) := fun h =>
    hnsp ((BitVecWrap.is_prefix_of_iff s pfx).mp h)
  have hipo2 : ¬ (BitVecWrap.is_prefix_of pfx s = true) := fun h =>
    hnps ((BitVecWrap.is_prefix_of_iff pfx s).mp h)
  have hmcomp : ∀ (q : List Bool) (b : Bool),
      (((X.map (fun o => q ++ o)).map (fun o => b :: o)).map
        (fun o => BitVecWrap.lcpLoop s pfx ++ o)) =
      X.map (fun o => (BitVecWrap.lcpLoop s pfx ++ b :: q) ++ o) := by
    intro q b
    rw [List.map_map, List.map_map]
    apply List.map_congr_left
    intro o ho
    simp
  cases bs with
  | false =>
    have hbq : bq = true := by revert hbsq; cases bq <;> simp
    subst hbq
    have hins : BitVecWrap.insert? (BitVecWrap.from_elem positions.length false) i true =
        some (insAt (List.replicate positions.length false) i true) := by
      rw [show BitVecWrap.from_elem positions.length false =
        List.replicate positions.length false from rfl]
      exact BitVecWrap.insert?_eq true (by rw [List.length_replicate]; omega)
    refine ⟨node (BitVecWrap.lcpLoop s pfx) (insAt (List.replicate positions.length false) i true)
      (some (node (pfx.drop ((BitVecWrap.lcpLoop s pfx).length + 1)) positions l r))
      (some (node (s.drop ((BitVecWrap.lcpLoop s pfx).length + 1))
        (BitVecWrap.from_elem 1 false) none none)), ?_, ?_, ?_⟩
    · rw [insert, if_neg hpfx_ne, if_neg hs_ne, if_neg (Ne.symm hs_ne_pfx),
        if_neg hipo1, if_neg hipo2]
      simp only [hlcp, hds_pfx, hds_s]
      rw [hins]
    · rw [GoodT]
      refine ⟨?_, hgo, hgleaf,
        ⟨X.map (fun o => pfx.drop ((BitVecWrap.lcpLoop s pfx).length + 1) ++ o), hall _, ?_⟩,
        ⟨[s.drop ((BitVecWrap.lcpLoop s pfx).length + 1)], ?_, ?_⟩⟩
      · intro heq
        have := insAt_length (List.replicate positions.length false) i true
          (by rw [List.length_replicate]; omega)
        rw [heq] at this
        simp at this
      · rw [List.length_map, hXlen,
          insAt_count (List.replicate positions.length false) i true false
            (by rw [List.length_replicate]; omega)]
        simp [List.count_replicate]
      · rw [contents, BitVecWrap.from_elem]
        rfl
      · rw [insAt_count (List.replicate positions.length false) i true true
            (by rw [List.length_replicate]; omega)]
        simp [List.count_replicate]
    · rw [contents, hall _]
      rw [show contents (node (s.drop ((BitVecWrap.lcpLoop s pfx).length + 1))
          (BitVecWrap.from_elem 1 false) none none) =
        some [s.drop ((BitVecWrap.lcpLoop s pfx).length + 1)] by
          rw [contents, BitVecWrap.from_elem]; rfl]
      dsimp only
      rw [show positions.length =
        (X.map (fun o => pfx.drop ((BitVecWrap.lcpLoop s pfx).length + 1) ++ o)).length by
          rw [List.length_map, hXlen]]
      rw [merge_split_false i _ _ (by rw [List.length_map, hXlen]; omega)]
      dsimp only
      rw [map_insAt, hmcomp, ← hpfx_decomp, ← hcsX, ← hs_decomp]
  | true =>
    have hbq : bq = false := by revert hbsq; cases bq <;> simp
    subst hbq
    have hins : BitVecWrap.insert? (BitVecWrap.from_elem positions.length true) i false =
        some (insAt (List.replicate positions.length true) i false) := by
      rw [show BitVecWrap.from_elem positions.length true =
        List.replicate positions.length true from rfl]
      exact BitVecWrap.insert?_eq false (by rw [List.length_replicate]; omega)
    refine ⟨node (BitVecWrap.lcpLoop s pfx) (insAt (List.replicate positions.length true) i false)
      (some (node (s.drop ((BitVecWrap.lcpLoop s pfx).length + 1))
        (BitVecWrap.from_elem 1 false) none none))
      (some (node (pfx.drop ((BitVecWrap.lcpLoop s pfx).length + 1)) positions l r)), ?_, ?_, ?_⟩
    · rw [insert, if_neg hpfx_ne, if_neg hs_ne, if_neg (Ne.symm hs_ne_pfx),
        if_neg hipo1, if_neg hipo2]
      simp only [hlcp, hds_pfx, hds_s]
      rw [hins]
    · rw [GoodT]
      refine ⟨?_, hgleaf, hgo,
        ⟨[s.drop ((BitVecWrap.lcpLoop s pfx).length + 1)], ?_, ?_⟩,
        ⟨X.map (fun o => pfx.drop ((BitVecWrap.lcpLoop s pfx).length + 1) ++ o), hall _, ?_⟩⟩
      · intro heq
        have := insAt_length (List.replicate positions.length true) i false
          (by rw [List.length_replicate]; omega)
        rw [heq] at this
        simp at this
      · rw [contents, BitVecWrap.from_elem]
        rfl
      · rw [insAt_count (List.replicate positions.length true) i false false
            (by rw [List.length_replicate]; omega)]
        simp [List.count_replicate]
      · rw [List.length_map, hXlen,
          insAt_count (List.replicate positions.length true) i false true
            (by rw [List.length_replicate]; omega)]
        simp [List.count_replicate]
    · rw [contents, hall _]
      rw [show contents (node (s.drop ((BitVecWrap.lcpLoop s pfx).length + 1))
          (BitVecWrap.from_elem 1 false) none none) =
        some [s.drop ((BitVecWrap.lcpLoop s pfx).length + 1)] by
          rw [contents, BitVecWrap.from_elem]; rfl]
      dsimp only
      rw [show positions.length =
        (X.map (fun o => pfx.drop ((BitVecWrap.lcpLoop s pfx).length + 1) ++ o)).length by
          rw [List.length_map, hXlen]]
      rw [merge_split_true i _ _ (by rw [List.length_map, hXlen]; omega)]
      dsimp only
      rw [map_insAt, hmcomp, ← hpfx_decomp, ← hcsX, ← hs_decomp]

end WaveletTrie

namespace WaveletTrie

theorem insert_spec : ∀ (n : Nat) (t : WaveletTrie), sizeOf t ≤ n →
    ∀ (s : List Bool) (i : Nat) (cs : List (List Bool)),
    GoodT t → contents t = some cs → i ≤ cs.length →
    (∀ o ∈ cs, (s <+: o → o = s) ∧ (o <+: s → o = s)) →
    ∃ t', insert t s i = some (t', Except.ok ()) ∧ GoodT t' ∧
      contents t' = some (insAt cs i s) := by
  intro n
  induction n with
  | zero =>
    intro t ht
    exfalso
    cases t with
    | node a b c d => simp at ht
  | succ n ih =>
    intro t ht s i cs hg hc hi h4
    cases t with
    | node pfx positions left right =>
      cases left with
      | none =>
        cases right with
        | some rt =>
          exfalso
          rw [GoodT] at hg
          · cases hg
          · intro a b heq; simp at heq
          · intro a b c d heq; simp at heq
        | none =>
          have hgsave := hg
          have hcsave := hc
          rw [contents] at hc
          have hcs : cs = List.replicate positions.length pfx := (Option.some_inj.mp hc).symm
          subst hcs
          rw [GoodT] at hg
          rw [List.length_replicate] at hi
          by_cases hpfx : pfx = []
          · subst hpfx
            have hkey : insAt (List.replicate positions.length ([] : List Bool)) i s =
                List.replicate (positions.length + 1) s := by
              by_cases hn0 : positions.length = 0
              · have hi0 : i = 0 := by omega
                subst hi0
                rw [hn0]
                rfl
              · have hs0 : s = [] := by
                  have hmem : ([] : List Bool) ∈ List.replicate positions.length ([] : List Bool) :=
                    List.mem_replicate.mpr ⟨hn0, rfl⟩
                  exact ((h4 [] hmem).2 (List.nil_prefix)).symm
                rw [hs0]
                exact insAt_replicate_self positions.length i [] hi
            refine ⟨node s (positions ++ [false]) none none, ?_, ?_, ?_⟩
            · rw [insert, if_pos rfl,
                if_pos (show Option.isNone (none : Option WaveletTrie) = true from rfl)]
              rw [BitVecWrap.copy_eq]
              rfl
            · rw [GoodT]
              intro hp
              exact absurd hp (by simp)
            · rw [contents, hkey]
              simp [BitVecWrap.push]
          · have hpos : positions ≠ [] := fun h => hpfx (hg h)
            have hn0 : positions.length ≠ 0 := fun h => hpos (List.length_eq_zero.mp h)
            have hmem_pfx : pfx ∈ List.replicate positions.length pfx :=
              List.mem_replicate.mpr ⟨hn0, rfl⟩
            by_cases hspfx : s = pfx
            · subst hspfx
              have hs_ne : s ≠ [] := hpfx
              refine ⟨node s (insAt positions i false) none none, ?_, ?_, ?_⟩
              · rw [insert, if_neg hpfx, if_neg hpfx, if_pos rfl,
                  if_pos (show Option.isNone (none : Option WaveletTrie) = true from rfl),
                  BitVecWrap.insert?_eq false hi]
              · rw [GoodT]
                intro hp
                have := insAt_length positions i false hi
                rw [hp] at this
                simp at this
              · rw [contents, insAt_length positions i false hi,
                  insAt_replicate_self positions.length i s hi]
            · have h4p := h4 pfx hmem_pfx
              have hnsp : ¬ (s <+: pfx) := fun hp => hspfx ((h4p.1 hp).symm)
              have hnps : ¬ (pfx <+: s) := fun hp => hspfx ((h4p.2 hp).symm)
              have := insert_split_spec pfx positions none none s i
                (List.replicate positions.length pfx) hgsave hcsave
                (by rw [List.length_replicate]; omega) hpos hnsp hnps
              exact this
      | some lt =>
        cases right with
        | none =>
          exfalso
          rw [GoodT] at hg
          · cases hg
          · intro a b heq; simp at heq
          · intro a b c d heq; simp at heq
        | some rt =>
          have hgsave := hg
          have hcsave := hc
          have hszl : sizeOf lt ≤ n := by simp at ht; omega
          have hszr : sizeOf rt ≤ n := by simp at ht; omega
          rw [GoodT] at hg
          obtain ⟨hpos, hglt, hgrt, ⟨cl, hcl, hcll⟩, ⟨cr, hcr, hcrl⟩⟩ := hg
          rw [contents, hcl, hcr] at hc
          dsimp only at hc
          cases hm : merge positions cl cr with
          | none => rw [hm] at hc; dsimp only at hc; cases hc
          | some ms =>
            rw [hm] at hc
            dsimp only at hc
            have hcs : cs = ms.map (fun o => pfx ++ o) := (Option.some_inj.mp hc).symm
            subst hcs
            obtain ⟨hmsl, -, -⟩ := merge_lengths positions cl cr ms hm
            have hms_ne : ms ≠ [] := by
              intro h
              rw [h] at hmsl
              exact hpos (List.length_eq_zero.mp hmsl.symm)
            obtain ⟨m0, hm0⟩ := List.exists_mem_of_ne_nil ms hms_ne
            obtain ⟨b0, m0', hb0⟩ : ∃ b m', m0 = b :: m' := by
              rcases merge_mem positions cl cr ms hm m0 hm0 with ⟨m', hm', -⟩ | ⟨m', hm', -⟩
              · exact ⟨false, m', hm'⟩
              · exact ⟨true, m', hm'⟩
            have hmem0 : pfx ++ m0 ∈ ms.map (fun o => pfx ++ o) :=
              List.mem_map.mpr ⟨m0, hm0, rfl⟩
            have hs_ne : s ≠ [] := by
              intro h
              subst h
              have h1 := (h4 _ hmem0).1 (List.nil_prefix)
              rw [hb0] at h1
              simp at h1
            have hs_ne_pfx : s ≠ pfx := by
              intro h
              have h1 := (h4 _ hmem0).1 (by rw [h]; exact List.prefix_append pfx m0)
              have h2 := congrArg List.length h1
              rw [hb0, h] at h2
              simp at h2
            by_cases hps : pfx <+: s
            · have hlen : pfx.length < s.length := prefix_length_lt hps (Ne.symm hs_ne_pfx)
              obtain ⟨t', h1, h2, h3⟩ := insert_to_child_spec n ih pfx positions lt rt s i
                (ms.map (fun o => pfx ++ o)) hszl hszr hgsave hcsave hi h4 hps hlen
              refine ⟨t', ?_, h2, h3⟩
              rw [show insert (node pfx positions (some lt) (some rt)) s i =
                  insert_to_child pfx positions (some lt) (some rt) s i from ?_, h1]
              by_cases hpfx : pfx = []
              · rw [insert, if_pos hpfx, if_neg (by simp), if_neg hs_ne]
              · have hnsp : ¬ (s <+: pfx) := fun h =>
                  absurd (List.IsPrefix.length_le h) (by omega)
                rw [insert, if_neg hpfx, if_neg hs_ne, if_neg (Ne.symm hs_ne_pfx),
                  if_neg (show ¬ (BitVecWrap.is_prefix_of s pfx = true) from fun h =>
                    hnsp ((BitVecWrap.is_prefix_of_iff s pfx).mp h)),
                  if_pos ((BitVecWrap.is_prefix_of_iff pfx s).mpr hps),
                  if_neg (by simp)]
            · have hnsp : ¬ (s <+: pfx) := by
                intro h
                have h1 := (h4 _ hmem0).1 (h.trans (List.prefix_append pfx m0))
                have h2 := congrArg List.length h1
                have h3 := List.IsPrefix.length_le h
                rw [hb0] at h2
                simp at h2
                omega
              exact insert_split_spec pfx positions (some lt) (some rt) s i _
                hgsave hcsave hi hpos hnsp hps

end WaveletTrie

namespace WaveletTrie

theorem goodT_new : GoodT new := by
  show GoodT (node [] [] none none)
  rw [GoodT]
  intro _
  rfl

theorem contents_new : contents new = some [] := by
  show contents (node [] [] none none) = some []
  rw [contents]
  rfl

theorem runInserts_spec : ∀ (ops : List (List Bool × Nat)) (t : WaveletTrie)
    (cs : List (List Bool)),
    GoodT t → contents t = some cs →
    (∀ p ∈ ops, ∀ o ∈ cs, (p.1 <+: o → o = p.1) ∧ (o <+: p.1 → o = p.1)) →
    (∀ p ∈ ops, ∀ q ∈ ops, p.1 <+: q.1 → p.1 = q.1) →
    (∀ j (h : j < ops.length), (ops.get ⟨j, h⟩).2 ≤ cs.length + j) →
    ∃ t' cs', runInserts t ops = some t' ∧ GoodT t' ∧ contents t' = some cs' ∧
      cs'.length = cs.length + ops.length ∧
      ∀ o ∈ cs', o ∈ cs ∨ ∃ p ∈ ops, o = p.1 := by
  intro ops
  induction ops with
  | nil =>
    intro t cs hg hc _ _ _
    exact ⟨t, cs, rfl, hg, hc, by simp, fun o ho => Or.inl ho⟩
  | cons p rest iH =>
    intro t cs hg hc hcompat hpw hidx
    obtain ⟨s, i⟩ := p
    have hi : i ≤ cs.length := by
      have := hidx 0 (by simp)
      simpa using this
    have h4 : ∀ o ∈ cs, (s <+: o → o = s) ∧ (o <+: s → o = s) := by
      intro o ho
      exact hcompat (s, i) (List.mem_cons_self ..) o ho
    obtain ⟨t1, hins, hg1, hc1⟩ := insert_spec (sizeOf t) t (Nat.le_refl _) s i cs hg hc hi h4
    have hc1len : (insAt cs i s).length = cs.length + 1 := insAt_length cs i s hi
    have hcompat' : ∀ q ∈ rest, ∀ o ∈ insAt cs i s,
        (q.1 <+: o → o = q.1) ∧ (o <+: q.1 → o = q.1) := by
      intro q hq o ho
      rcases insAt_mem ho with heq | ho2
      · replace heq := heq.symm
        subst heq
        constructor
        · intro hp
          exact (hpw q (List.mem_cons_of_mem _ hq) (s, i) (List.mem_cons_self ..) hp).symm
        · intro hp
          exact hpw (s, i) (List.mem_cons_self ..) q (List.mem_cons_of_mem _ hq) hp
      · exact hcompat q (List.mem_cons_of_mem _ hq) o ho2
    have hidx' : ∀ j (h : j < rest.length),
        (rest.get ⟨j, h⟩).2 ≤ (insAt cs i s).length + j := by
      intro j h
      have := hidx (j + 1) (by simp; omega)
      rw [hc1len]
      simp only [List.length_cons, List.get_cons_succ] at this ⊢
      omega
    obtain ⟨t', cs', hrun, hg', hc', hlen', hmem'⟩ := iH t1 (insAt cs i s) hg1 hc1 hcompat'
      (fun q hq q' hq' => hpw q (List.mem_cons_of_mem _ hq) q' (List.mem_cons_of_mem _ hq'))
      hidx'
    refine ⟨t', cs', ?_, hg', hc', ?_, ?_⟩
    · rw [runInserts, hins]
      exact hrun
    · rw [hlen', hc1len, List.length_cons]
      omega
    · intro o ho
      rcases hmem' o ho with h1 | ⟨q, hq, hoq⟩
      · rcases insAt_mem h1 with heq | h2
        · replace heq := heq.symm
          subst heq
          exact Or.inr ⟨(s, i), List.mem_cons_self .., rfl⟩
        · exact Or.inl h2
      · exact Or.inr ⟨q, List.mem_cons_of_mem _ hq, hoq⟩

end WaveletTrie

theorem get_append_middle {α : Type} : ∀ (l1 : List α) (x : α) (l2 : List α)
    (h : l1.length < (l1 ++ x :: l2).length),
    (l1 ++ x :: l2).get ⟨l1.length, h⟩ = x := by
  intro l1
  induction l1 with
  | nil => intro x l2 h; rfl
  | cons a l ih =>
    intro x l2 h
    exact ih x l2 (by simpa using h)

namespace WaveletTrie

/-- C3 (amended): starting from the empty trie, run any sequence of `insert`
operations whose sequences are pairwise prefix-free (an inserted sequence that
is a prefix of another inserted sequence must equal it) and whose j-th
operation uses a valid index (at most j, the length of the trie at that
moment). Then every operation succeeds and, for the operation inserting `s` at
index `i`, IMMEDIATELY after that insertion the trie `t2` with contents `cs2`
satisfies `rank s i = some ((cs2.take i).count s)` — the number of occurrences
of `s` among the first `i` stored occurrences — and
`rank s (i+1) = some ((cs2.take i).count s + 1)`, so
`rank(s, i+1) - rank(s, i) = 1`. The literal claim, which reads the two rank
equations in the FINAL trie while keeping the insertion-time index `i`, is
false: later insertions at smaller indices shift the occurrence positions
(see the counterexample theorem). -/
theorem rank_counts_inserted (ops1 ops2 : List (List Bool × Nat)) (s : List Bool) (i : Nat)
    (hpw : ∀ p ∈ ops1 ++ (s, i) :: ops2, ∀ q ∈ ops1 ++ (s, i) :: ops2,
      p.1 <+: q.1 → p.1 = q.1)
    (hidx : ∀ j (h : j < (ops1 ++ (s, i) :: ops2).length),
      ((ops1 ++ (s, i) :: ops2).get ⟨j, h⟩).2 ≤ j) :
    ∃ t1 t2 cs2, runInserts new ops1 = some t1 ∧
      insert t1 s i = some (t2, Except.ok ()) ∧
      contents t2 = some cs2 ∧
      rank t2 s i = some ((cs2.take i).count s) ∧
      rank t2 s (i + 1) = some ((cs2.take i).count s + 1) := by
  have hmidx : ops1.length < (ops1 ++ (s, i) :: ops2).length := by simp
  have hmid : (ops1 ++ (s, i) :: ops2).get ⟨ops1.length, hmidx⟩ = (s, i) :=
    get_append_middle ops1 (s, i) ops2 hmidx
  obtain ⟨t1, cs1, hrun, hg1, hc1, hlen1, hmem1⟩ := runInserts_spec ops1 new [] goodT_new
    contents_new
    (fun p _ o ho => absurd ho (List.not_mem_nil o))
    (fun p hp q hq => hpw p (List.mem_append_left _ hp) q (List.mem_append_left _ hq))
    (by
      intro j h
      have hj : j < (ops1 ++ (s, i) :: ops2).length := by simp; omega
      have := hidx j hj
      rw [List.get_append j h] at this
      simpa using this)
  have hi1 : i ≤ cs1.length := by
    have := hidx ops1.length hmidx
    rw [hmid] at this
    omega
  have h4 : ∀ o ∈ cs1, (s <+: o → o = s) ∧ (o <+: s → o = s) := by
    intro o ho
    rcases hmem1 o ho with hnil | ⟨q, hq, hoq⟩
    · exact absurd hnil (List.not_mem_nil o)
    · subst hoq
      constructor
      · intro hp
        exact (hpw (s, i) (List.mem_append_right _ (List.mem_cons_self ..)) q
          (List.mem_append_left _ hq) hp).symm
      · intro hp
        exact hpw q (List.mem_append_left _ hq) (s, i)
          (List.mem_append_right _ (List.mem_cons_self ..)) hp
  obtain ⟨t2, hins, hg2, hc2⟩ := insert_spec (sizeOf t1) t1 (Nat.le_refl _) s i cs1 hg1 hc1 hi1 h4
  have hlen2 : (insAt cs1 i s).length = cs1.length + 1 := insAt_length cs1 i s hi1
  have hpf : ∀ o ∈ insAt cs1 i s, s <+: o → o = s := by
    intro o ho hp
    rcases insAt_mem ho with heq | ho2
    · exact heq
    · exact (h4 o ho2).1 hp
  have hr1 : rank t2 s i = some (((insAt cs1 i s).take i).count s) :=
    rank_spec (sizeOf t2) t2 (Nat.le_refl _) s i (insAt cs1 i s) hg2 hc2
      (insAt_mem_self cs1 i s) hpf (by omega)
  have hr2 : rank t2 s (i + 1) = some (((insAt cs1 i s).take (i + 1)).count s) :=
    rank_spec (sizeOf t2) t2 (Nat.le_refl _) s (i + 1) (insAt cs1 i s) hg2 hc2
      (insAt_mem_self cs1 i s) hpf (by omega)
  have hcnt : ((insAt cs1 i s).take (i + 1)).count s =
      ((insAt cs1 i s).take i).count s + 1 := by
    rw [insAt_take_succ cs1 i s hi1, insAt_take_le cs1 i s hi1, List.count_append]
    simp
  exact ⟨t1, t2, insAt cs1 i s, hrun, hins, hc2, hr1, by rw [hr2, hcnt]⟩

/-- Witness for the amended C3 theorem: the one-operation run inserting `1`
at index 0 into the empty trie. -/
theorem rank_counts_inserted_witness :
    ∃ t1 t2 cs2, runInserts new [] = some t1 ∧
      insert t1 [true] 0 = some (t2, Except.ok ()) ∧
      contents t2 = some cs2 ∧
      rank t2 [true] 0 = some ((cs2.take 0).count [true]) ∧
      rank t2 [true] 1 = some ((cs2.take 0).count [true] + 1) :=
  rank_counts_inserted [] [] [true] 0
    (by
      intro p hp q hq
      simp at hp hq
      subst hp
      subst hq
      intro _
      rfl)
    (by
      intro j h
      simp at h
      subst h
      simp)

/-- C3 counterexample to the literal claim: insert `1` at index 0, then `0`
at index 0 — two pairwise prefix-free sequences at valid indices. In the
resulting final trie, for the inserted sequence `1` whose insertion-time index
was `i = 0`, both `rank(1, i)` and `rank(1, i+1)` evaluate to 0, so
`rank(1, i+1) - rank(1, i) = 0 ≠ 1` and the claimed equations fail in the
final trie (the second insertion shifted the occurrence of `1` to position 1). -/
theorem rank_final_trie_counterexample :
    insert new [true] 0 = some (node [true] [false] none none, Except.ok ()) ∧
    insert (node [true] [false] none none) [false] 0 =
      some (node [] [false, true]
        (some (node [] [false] none none))
        (some (node [] [false] none none)), Except.ok ()) ∧
    rank (node [] [false, true]
        (some (node [] [false] none none))
        (some (node [] [false] none none))) [true] 0 = some 0 ∧
    rank (node [] [false, true]
        (some (node [] [false] none none))
        (some (node [] [false] none none))) [true] 1 = some 0 := by
  refine ⟨?_, ?_, ?_, ?_⟩
  · simp [insert, new, BitVecWrap.copy, BitVecWrap.push]
  · have h1 : BitVecWrap.is_prefix_of [false] [true] = false :=
      BitVecWrap.is_prefix_of_false_eval (by decide)
    have h2 : BitVecWrap.is_prefix_of [true] [false] = false :=
      BitVecWrap.is_prefix_of_false_eval (by decide)
    have h3 : BitVecWrap.insert? [true] 0 false = some [false, true] := by
      rw [BitVecWrap.insert?_eq false (by decide)]
      rfl
    simp [insert, h1, h2, h3, BitVecWrap.lcp, BitVecWrap.lcpLoop,
      BitVecWrap.different_suffix, BitVecWrap.from_elem]
  · have h1 : BitVecWrap.is_prefix_of [] [true] = true :=
      BitVecWrap.is_prefix_of_true_eval (by decide)
    have h2 : BitVecWrap.rank_one [false, true] 0 = some 0 := by
      rw [BitVecWrap.rank_one_eq (by decide)]
      rfl
    simp [rank, h1, h2, BitVecWrap.different_suffix]
  · have h1 : BitVecWrap.is_prefix_of [] [true] = true :=
      BitVecWrap.is_prefix_of_true_eval (by decide)
    have h2 : BitVecWrap.rank_one [false, true] 1 = some 0 := by
      rw [BitVecWrap.rank_one_eq (by decide)]
      rfl
    simp [rank, h1, h2, BitVecWrap.different_suffix]

end WaveletTrie
